import Mathlib

/-!
Verification of the wasm kernel library in src/client/src/wasm/src/lib.rs.

The Rust kernels operate on i32 / u32 / u64 machine integers, f64 doubles and
byte buffers.  The shallow embedding below models:

* machine integers as Nat / Int with explicit reduction modulo 2^w where the
  source wraps (release-mode wasm builds use wrapping arithmetic);
* f64 values as dyadic rationals: a structure carrying a numerator n : Int and
  a scale k : Nat denoting the real value n / 2^k, together with an explicit
  IEEE-754 round-to-nearest-even operation at 53 significant bits applied
  after every arithmetic operation, exactly as the hardware does for normal
  (non-overflowing, non-subnormal) doubles.  All values reached by the claims
  lie well inside the normal range, and no kernel here can produce a NaN from
  non-NaN inputs on the paths the claims describe;
* byte buffers as List Nat with values below 256;
* the fallible paths of calculate_primes (index-out-of-bounds panics after
  u32 wrap-around, and the potentially diverging inner marking loop) as
  Option results with an explicit fuel argument for the loop;
* Rust slice indexing by List.getD with a default that is provably never
  used on in-bounds executions.

Recursive loops are written with a structural fuel or counter so that every
definition evaluates by kernel reduction on concrete inputs.
-/

namespace Wasm

/-! ### Binary logarithm on Nat, by structural fuel -/

/-- Floor of the base-two logarithm, driven by a structural fuel argument so
that it reduces in the kernel. -/
def log2fuel : Nat → Nat → Nat
  | 0, _ => 0
  | f + 1, n => if n ≤ 1 then 0 else log2fuel f (n / 2) + 1

/-- Floor of the base-two logarithm of a positive natural number. -/
def log2floor (n : Nat) : Nat := log2fuel n n

/-! ### Dyadic model of IEEE-754 binary64

A value ⟨n, k⟩ denotes the real number n / 2^k.  Every finite double is of
this form, and every arithmetic operation of the source rounds its exact
result to 53 significant bits, nearest, ties to even. -/

/-- Dyadic rational: the value is n / 2^k.  Model of a finite f64. -/
structure Dy where
  n : Int
  k : Nat
  deriving DecidableEq, Repr

instance : Inhabited Dy := ⟨⟨0, 0⟩⟩

/-- The double 0.0. -/
def d0 : Dy := ⟨0, 0⟩

/-- The double 1.0. -/
def d1 : Dy := ⟨1, 0⟩

/-- The double 255.0. -/
def d255 : Dy := ⟨255, 0⟩

/-- Embedding of a byte value into the double model (u8 as f64 is exact). -/
def dofNat (c : Nat) : Dy := ⟨(c : Int), 0⟩

/-- Canonical form: strip common factors of two from numerator and scale, so
that equal values have equal representations.  Structural recursion on k. -/
def dnorm : Int → Nat → Dy
  | n, 0 => ⟨n, 0⟩
  | n, k + 1 => if n % 2 = 0 then dnorm (n / 2) k else ⟨n, k + 1⟩

/-- Round a dyadic value to 53 significant bits, nearest, ties to even: the
IEEE-754 binary64 rounding applied by every f64 operation of the source.
A numerator of at most 53 bits is exactly representable and only gets
canonicalised. -/
def dround (x : Dy) : Dy :=
  if x.n = 0 then ⟨0, 0⟩
  else
    let a := x.n.natAbs
    let L := log2floor a
    if L ≤ 52 then dnorm x.n x.k
    else
      let sh := L - 52
      let mlo := a / 2 ^ sh
      let r2 := 2 * (a % 2 ^ sh)
      let m : Nat :=
        if r2 < 2 ^ sh then mlo
        else if 2 ^ sh < r2 then mlo + 1
        else if mlo % 2 = 0 then mlo else mlo + 1
      let mag : Dy :=
        if x.k ≤ sh then ⟨(m : Int) * 2 ^ (sh - x.k), 0⟩ else ⟨(m : Int), x.k - sh⟩
      dnorm (if x.n < 0 then -mag.n else mag.n) mag.k

/-- Exact sum of two dyadic values, before rounding. -/
def dadd (x y : Dy) : Dy := ⟨x.n * 2 ^ y.k + y.n * 2 ^ x.k, x.k + y.k⟩

/-- Exact product of two dyadic values, before rounding. -/
def dmul (x y : Dy) : Dy := ⟨x.n * y.n, x.k + y.k⟩

/-- Model of f64 addition: exact sum, then binary64 rounding. -/
def fadd (x y : Dy) : Dy := dround (dadd x y)

/-- Model of f64 multiplication: exact product, then binary64 rounding. -/
def fmul (x y : Dy) : Dy := dround (dmul x y)

/-- Model of f64 negation (exact). -/
def dneg (x : Dy) : Dy := ⟨-x.n, x.k⟩

/-- Model of f64 subtraction: exact difference, then binary64 rounding. -/
def fsub (x y : Dy) : Dy := dround (dadd x (dneg y))

/-- Decidable comparison: the value of x is at most the value of y. -/
def dle (x y : Dy) : Bool := x.n * 2 ^ y.k ≤ y.n * 2 ^ x.k

/-- Decidable comparison: the value of x is strictly below the value of y. -/
def dlt (x y : Dy) : Bool := x.n * 2 ^ y.k < y.n * 2 ^ x.k

/-- Model of Rust f64::min on non-NaN arguments. -/
def dmin (x y : Dy) : Dy := if dle x y then x else y

/-- Model of the Rust expression FLOAT as u8: saturating conversion.  Negative
values (and NaN, which cannot arise here) give 0, values of 255 or more give
255, and in between the value is truncated toward zero. -/
def sat_u8 (x : Dy) : Nat :=
  if x.n ≤ 0 then 0 else min (x.n.toNat / 2 ^ x.k) 255

/-- Modelled from the spec: the float-to-byte conversion the specification
describes for adjust_brightness, where a negative result WRAPS on the cast
(truncation toward zero followed by reduction modulo 256) instead of
saturating.  This is stated only to be compared against the source's
saturating cast sat_u8. -/
def wrap_u8 (x : Dy) : Nat :=
  (((if x.n < 0 then -((-x.n).toNat / 2 ^ x.k : Int) else ((x.n.toNat / 2 ^ x.k : Nat) : Int)) % 256).toNat)

/-- The double literal 0.299 of the source: the IEEE-754 binary64 value
nearest to 299/1000, namely 5386305154335113 / 2^54. -/
def c299 : Dy := ⟨5386305154335113, 54⟩

/-- The double literal 0.587 of the source: the IEEE-754 binary64 value
nearest to 587/1000, namely 2643612981266481 / 2^52. -/
def c587 : Dy := ⟨2643612981266481, 52⟩

/-- The double literal 0.114 of the source: the IEEE-754 binary64 value
nearest to 114/1000, namely 8214565720323785 / 2^56. -/
def c114 : Dy := ⟨8214565720323785, 56⟩

/-! ### Scalar kernels: add, fibonacci -/

/-- Reduction of an unbounded integer to the two's-complement i32 range,
the wrapping semantics of release-mode wasm arithmetic. -/
def wrap32 (x : Int) : Int := (x + 2 ^ 31) % 2 ^ 32 - 2 ^ 31

/-- Model of pub fn add(a: i32, b: i32) -> i32 { a + b }: i32 addition with
wrap-around on overflow. -/
def add (a b : Int) : Int := wrap32 (a + b)

/-- Inner loop of fibonacci: count remaining iterations, the pair (a, b) of
u64 accumulators, each addition reduced modulo 2^64 as u64 wraps. -/
def fibLoop : Nat → Nat → Nat → Nat
  | 0, _, b => b
  | c + 1, a, b => fibLoop c b ((a + b) % 2 ^ 64)

/-- Model of pub fn fibonacci(n: u32) -> u64: 0 and 1 for n = 0, 1, and for
n ≥ 2 the loop for _ in 2..=n doing n-1 wrapped additions. -/
def fibonacci (n : Nat) : Nat :=
  match n with
  | 0 => 0
  | 1 => 1
  | m + 2 => fibLoop (m + 1) 0 1

/-! ### Matrix multiply kernel -/

/-- Inner k-loop of matrix_multiply: left-to-right f64 accumulation of
a[i*n+k] * b[k*n+j] starting from 0.0. -/
def mmSum (a b : List Dy) (n i j : Nat) : Dy :=
  (List.range n).foldl (fun s k => fadd s (fmul (a.getD (i * n + k) d0) (b.getD (k * n + j) d0))) d0

/-- Model of pub fn matrix_multiply(a, b, n): a fresh vec![0.0; n*n], then the
two outer loops writing result[i*n+j] = inner accumulation. -/
def matrix_multiply (a b : List Dy) (n : Nat) : List Dy :=
  (List.range n).foldl
    (fun res i =>
      (List.range n).foldl (fun res2 j => res2.set (i * n + j) (mmSum a b n i j)) res)
    (List.replicate (n * n) d0)

/-- Identity matrix of side n in the float model, row major. -/
def identityMat (n : Nat) : List Dy :=
  (List.range (n * n)).map (fun idx => if idx / n = idx % n then d1 else d0)

/-! ### Timed accumulation kernel -/

/-- Model of the struct ComputeResult serialized back to the caller. -/
structure ComputeResult where
  success : Bool
  value : Dy
  duration_ms : Dy
  deriving DecidableEq, Repr

/-- Model of pub fn compute_complex(iterations: u32).  The two clock reads of
js_sys::Date::now() and the sin and cos evaluations are external inputs of
the kernel, so they are parameters of the embedding: sinD i and cosD i stand
for the doubles (i as f64).sin() and (i as f64).cos(), and t0, t1 for the
start and end timestamps.  The accumulator is a left-to-right f64 fold of
sinD i * cosD i starting from 0.0, and duration_ms is the f64 difference of
the two clock reads. -/
def compute_complex (sinD cosD : Nat → Dy) (t0 t1 : Dy) (iterations : Nat) : ComputeResult :=
  { success := true
    value := (List.range iterations).foldl (fun r i => fadd r (fmul (sinD i) (cosD i))) d0
    duration_ms := fsub t1 t0 }

/-! ### Pixel filter kernels -/

/-- Model of the gray value of one RGBA chunk: (0.299 * r + 0.587 * g +
0.114 * b) as u8, every f64 operation rounded as the hardware rounds. -/
def grayByte (r g b : Nat) : Nat :=
  sat_u8 (fadd (fadd (fmul c299 (dofNat r)) (fmul c587 (dofNat g))) (fmul c114 (dofNat b)))

/-- Model of pub fn grayscale(data: &mut [u8]): data.chunks_mut(4) with the
len == 4 guard; each full RGBA chunk gets gray = (0.299*r + 0.587*g +
0.114*b) as u8 written to all three colour channels, alpha untouched, and a
trailing chunk shorter than four bytes is returned unchanged. -/
def grayscale : List Nat → List Nat
  | r :: g :: b :: a :: rest => grayByte r g b :: grayByte r g b :: grayByte r g b :: a :: grayscale rest
  | l => l

/-- Decidable condition of claim C3 on a pixel buffer: every full RGBA chunk
has its three colour channels equal. -/
def grayEq : List Nat → Bool
  | r :: g :: b :: _ :: rest => (r == g && g == b) && grayEq rest
  | _ => true

/-- Model of one colour channel of adjust_brightness: (c as f64 * factor)
.min(255.0) as u8. -/
def brightByte (c : Nat) (factor : Dy) : Nat :=
  sat_u8 (dmin (fmul (dofNat c) factor) d255)

/-- Model of pub fn adjust_brightness(data: &mut [u8], factor: f64): each full
RGBA chunk has its three colour channels scaled and saturated, alpha
untouched, trailing short chunk unchanged. -/
def adjust_brightness : List Nat → Dy → List Nat
  | r :: g :: b :: a :: rest, factor =>
    brightByte r factor :: brightByte g factor :: brightByte b factor :: a :: adjust_brightness rest factor
  | l, _ => l

/-! ### Sorting kernel

The only operations the source performs on the f64 elements are the strict
comparison arr[j] < pivot and swaps, so the embedding is parametric in an
arbitrary Boolean comparison ltb, which also covers the NaN case (comparisons
against NaN are false).  Slice reads are List.getD with the pivot as default;
every read of an in-range execution is in bounds. -/

/-- Model of <[f64]>::swap(i, j): exchange the entries at two indices, the
identity if either index is out of bounds. -/
def swapL {α : Type} (l : List α) (i j : Nat) : List α :=
  match l[i]?, l[j]? with
  | some a, some b => (l.set i b).set j a
  | _, _ => l

/-- Loop for j in low..high of partition, with a structural counter c for the
remaining iterations (c = high - j).  State: the slice and the write index i. -/
def partLoop {α : Type} (ltb : α → α → Bool) (pivot : α) : Nat → List α → Nat → Nat → List α × Nat
  | 0, arr, i, _ => (arr, i)
  | c + 1, arr, i, j =>
    if ltb (arr.getD j pivot) pivot then partLoop ltb pivot c (swapL arr i j) (i + 1) (j + 1)
    else partLoop ltb pivot c arr i (j + 1)

/-- Model of fn partition(arr, low, high) -> usize: Lomuto partition with the
last element of the range as pivot; returns the updated slice and the final
pivot position. -/
def partition {α : Type} [Inhabited α] (ltb : α → α → Bool) (arr : List α) (low high : Nat) :
    List α × Nat :=
  let pivot := arr.getD high default
  let r := partLoop ltb pivot (high - low) arr low low
  (swapL r.1 r.2 high, r.2)

/-- Model of fn quicksort_recursive(arr, low, high), with a structural fuel
argument bounding the recursion depth measure high - low; fuel high - low is
always sufficient (proved below), so the fuel-exhausted branch is never taken
from the entry point. -/
def quicksort_recursive {α : Type} [Inhabited α] (ltb : α → α → Bool) :
    Nat → List α → Nat → Nat → List α
  | 0, arr, _, _ => arr
  | f + 1, arr, low, high =>
    if low < high then
      let p := partition ltb arr low high
      let arr2 := if 0 < p.2 then quicksort_recursive ltb f p.1 low (p.2 - 1) else p.1
      quicksort_recursive ltb f arr2 (p.2 + 1) high
    else arr

/-- Model of pub fn quicksort(arr: &mut [f64]): immediate return on length at
most one, otherwise quicksort_recursive(arr, 0, len - 1). -/
def quicksort {α : Type} [Inhabited α] (ltb : α → α → Bool) (arr : List α) : List α :=
  if arr.length ≤ 1 then arr
  else quicksort_recursive ltb arr.length arr 0 (arr.length - 1)

/-- Comparison of the float model used by the sort on non-NaN doubles: the
numeric strict order on the denoted rationals. -/
def fltLt (x y : Dy) : Bool := dlt x y

/-! ### Prime sieve kernel -/

/-- Upward search for the integer square root, driven by a structural fuel
argument so that it reduces in the kernel; returns the last r with r * r ≤ n
reached from the given start. -/
def sqrtAux (n : Nat) : Nat → Nat → Nat
  | 0, r => r
  | f + 1, r => if (r + 1) * (r + 1) ≤ n then sqrtAux n f (r + 1) else r

/-- Kernel-computable integer square root; proved equal to Nat.sqrt below. -/
def isqrt (n : Nat) : Nat := sqrtAux n n 0

/-- Inner while j <= n loop of calculate_primes, marking multiples of i.  The
u32 increment j += i is reduced modulo 2^32 as in release-mode wasm; the
write is_prime[j] = false panics (None) when j is out of bounds; fuel makes
the possibly non-terminating wrapped loop a total function. -/
def markMultiples : Nat → List Bool → Nat → Nat → Nat → Option (List Bool)
  | 0, _, _, _, _ => none
  | fuel + 1, isp, i, j, n =>
    if j ≤ n then
      if j < isp.length then markMultiples fuel (isp.set j false) i ((j + i) % 2 ^ 32) n
      else none
    else some isp

/-- Outer for i in 2..=bound loop of the sieve, with a structural counter c
for the remaining iterations (c = bound + 1 - i).  The read is_prime[i]
panics (None) when out of bounds; each inner loop gets fuel n + 2, which is
sufficient whenever no u32 wrap occurs. -/
def sieveLoop : Nat → List Bool → Nat → Nat → Option (List Bool)
  | 0, isp, _, _ => some isp
  | c + 1, isp, i, n =>
    if h : i < isp.length then
      if isp.get ⟨i, h⟩ then
        match markMultiples (n + 2) isp i ((i * i) % 2 ^ 32) n with
        | none => none
        | some isp2 => sieveLoop c isp2 (i + 1) n
      else sieveLoop c isp (i + 1) n
    else none

/-- Collection phase of calculate_primes: indices of the marker list that are
still true, in order, via enumerate and filter_map. -/
def collectPrimes (isp : List Bool) : List Nat :=
  isp.enum.filterMap (fun p => if p.2 then some p.1 else none)

/-- Model of pub fn calculate_primes(n: u32) -> Vec<u32>.  The marker vector
has (n + 1) as usize entries, where n + 1 wraps modulo 2^32 in release-mode
wasm; the initial writes is_prime[0] and is_prime[1] panic (None) when the
wrapped size is too small.  The bound of the outer loop is
(n as f64).sqrt() as u32, which equals Nat.sqrt n for every n < 2^32 because
the correctly rounded double square root of such n never crosses an integer
boundary.  The result is None exactly on the panicking or diverging
executions. -/
def calculate_primes (n : Nat) : Option (List Nat) :=
  if n < 2 then some []
  else
    let size := (n + 1) % 2 ^ 32
    if 2 ≤ size then
      let isp := ((List.replicate size true).set 0 false).set 1 false
      match sieveLoop (isqrt n - 1) isp 2 n with
      | none => none
      | some final => some (collectPrimes final)
    else none

/-- Contiguous segment of a list from index low to index high, inclusive. -/
def seg {α : Type} (l : List α) (low high : Nat) : List α :=
  (l.drop low).take (high + 1 - low)

/-- Specification predicate for the sieve loop: before processing index i,
the marker list has the right length and position m holds true exactly when
m is at least 2 and no d with 2 <= d < i divides m with d * d <= m. -/
def SieveInv (n : Nat) (isp : List Bool) (i : Nat) : Prop :=
  isp.length = n + 1 ∧
  ∀ m, m ≤ n → (isp.getD m false = true ↔
    (2 ≤ m ∧ ¬∃ d, 2 ≤ d ∧ d < i ∧ d ∣ m ∧ d * d ≤ m))

/-! ## Theorems -/

set_option maxRecDepth 40000
set_option maxHeartbeats 4000000

/-! ### C9: i32 addition wraps -/

/-- C9: for every pair of signed 32-bit integers, add returns their sum under
two's-complement wrap-around semantics modulo 2^32: the result is the unique
integer in the i32 range congruent to the exact sum modulo 2^32, and
overflow is defined behavior, never an error. -/
theorem add_wraps (a b : Int) :
    -2 ^ 31 ≤ add a b ∧ add a b < 2 ^ 31 ∧ add a b % 2 ^ 32 = (a + b) % 2 ^ 32 ∧
      ∀ y : Int, -2 ^ 31 ≤ y → y < 2 ^ 31 → y % 2 ^ 32 = (a + b) % 2 ^ 32 → y = add a b := by
  unfold add wrap32
  refine ⟨by omega, by omega, by omega, ?_⟩
  intro y h1 h2 h3
  omega

/-- Witness: the theorem applied at the overflow boundary, where the wrapped
sum of 2147483647 and 1 is -2147483648. -/
theorem add_wraps_witness : (2147483647 : Int) + 1 ≠ add 2147483647 1 ∧ add 2147483647 1 = -2147483648 := by
  have h := (add_wraps 2147483647 1).2.2.2 (-2147483648) (by decide) (by decide) (by decide)
  exact ⟨by rw [← h]; decide, h.symm⟩

/-! ### C6: fibonacci modulo 2^64 -/

theorem fibLoop_eq (c : Nat) :
    ∀ m : Nat, fibLoop c (Nat.fib m % 2 ^ 64) (Nat.fib (m + 1) % 2 ^ 64) = Nat.fib (m + 1 + c) % 2 ^ 64 := by
  induction c with
  | zero => intro m; simp [fibLoop]
  | succ c ih =>
    intro m
    have h : (Nat.fib m % 2 ^ 64 + Nat.fib (m + 1) % 2 ^ 64) % 2 ^ 64 = Nat.fib (m + 2) % 2 ^ 64 := by
      rw [← Nat.add_mod, Nat.fib_add_two]
    have h2 := ih (m + 1)
    simp only [fibLoop, h]
    have h3 : Nat.fib (m + 2) = Nat.fib (m + 1 + 1) := by ring_nf
    rw [h3, h2]
    ring_nf

/-- C6: fibonacci n equals the n-th Fibonacci number reduced modulo 2^64 for
every n (the u64 accumulation wraps silently, never errors), and in
particular fibonacci 0 = 0, fibonacci 1 = 1, fibonacci 10 = 55 and
fibonacci 20 = 6765. -/
theorem fibonacci_eq_fib_mod :
    (∀ n : Nat, fibonacci n = Nat.fib n % 2 ^ 64) ∧
      fibonacci 0 = 0 ∧ fibonacci 1 = 1 ∧ fibonacci 10 = 55 ∧ fibonacci 20 = 6765 := by
  refine ⟨?_, by decide, by decide, by decide, by decide⟩
  intro n
  match n with
  | 0 => decide
  | 1 => decide
  | m + 2 =>
    show fibLoop (m + 1) 0 1 = Nat.fib (m + 2) % 2 ^ 64
    have h := fibLoop_eq (m + 1) 0
    simpa [show 1 + (m + 1) = m + 2 by omega] using h

/-! ### C7: compute_complex structured result -/

theorem dnorm_nonneg {n : Int} (k : Nat) (h : 0 ≤ n) : 0 ≤ (dnorm n k).n := by
  induction k generalizing n with
  | zero => simpa [dnorm]
  | succ k ih =>
    simp only [dnorm]
    split
    · exact ih (by omega)
    · simpa

theorem dround_nonneg {x : Dy} (h : 0 ≤ x.n) : 0 ≤ (dround x).n := by
  unfold dround
  split
  · simp
  · simp only []
    split
    · exact dnorm_nonneg _ h
    · refine dnorm_nonneg _ ?_
      split
      · omega
      · split <;> positivity

/-- C7: for every iteration count, the record returned by compute_complex has
success true; its duration_ms is nonnegative whenever the end clock read is
at least the start clock read; its value is the left-to-right f64
accumulation of sin(i) * cos(i) for i below the iteration count, is
independent of the clock reads, and is 0.0 for zero iterations. -/
theorem compute_complex_spec (sinD cosD : Nat → Dy) (t0 t1 : Dy) (iterations : Nat)
    (h : dle t0 t1 = true) :
    (compute_complex sinD cosD t0 t1 iterations).success = true ∧
      dle d0 (compute_complex sinD cosD t0 t1 iterations).duration_ms = true ∧
      (compute_complex sinD cosD t0 t1 iterations).value =
        (List.range iterations).foldl (fun r i => fadd r (fmul (sinD i) (cosD i))) d0 ∧
      (∀ s1 s2 : Dy, (compute_complex sinD cosD s1 s2 iterations).value =
        (compute_complex sinD cosD t0 t1 iterations).value) ∧
      (iterations = 0 → (compute_complex sinD cosD t0 t1 iterations).value = d0) := by
  refine ⟨rfl, ?_, rfl, fun s1 s2 => rfl, ?_⟩
  · have hn : 0 ≤ (dadd t1 (dneg t0)).n := by
      simp only [dle, decide_eq_true_eq] at h
      simp only [dadd, dneg, neg_mul]
      omega
    have h2 := dround_nonneg hn
    simp only [compute_complex, fsub, dle, d0, decide_eq_true_eq]
    omega
  · intro h0
    subst h0
    rfl

/-- Witness: compute_complex at zero iterations with clock reads 0.0 and 1.0
reports success with nonnegative duration. -/
theorem compute_complex_spec_witness :
    dle d0 (compute_complex (fun _ => d0) (fun _ => d0) d0 d1 0).duration_ms = true ∧
      (compute_complex (fun _ => d0) (fun _ => d0) d0 d1 0).value = d0 := by
  have h := compute_complex_spec (fun _ => d0) (fun _ => d0) d0 d1 0 (by decide)
  exact ⟨h.2.1, h.2.2.2.2 rfl⟩

/-! ### Helper lemmas on the float model and on 4-byte chunks -/

theorem dnorm_nonpos {n : Int} (k : Nat) (h : n ≤ 0) : (dnorm n k).n ≤ 0 := by
  induction k generalizing n with
  | zero => simpa [dnorm]
  | succ k ih =>
    simp only [dnorm]
    split
    · exact ih (by omega)
    · simpa

theorem dround_nonpos {x : Dy} (h : x.n ≤ 0) : (dround x).n ≤ 0 := by
  unfold dround
  split
  · simp
  · simp only []
    split
    · exact dnorm_nonpos _ h
    · refine dnorm_nonpos _ ?_
      have hneg : x.n < 0 := by omega
      simp only [if_pos hneg, neg_nonpos]
      repeat' split
      all_goals positivity

theorem brightByte_neg (c : Nat) (f : Dy) (h : dlt f d0 = true) : brightByte c f = 0 := by
  have hf : f.n < 0 := by simpa [dlt, d0] using h
  have hprod : (dmul (dofNat c) f).n ≤ 0 := by
    simp only [dmul, dofNat]
    exact mul_nonpos_of_nonneg_of_nonpos (by positivity) (by omega)
  have hm : (fmul (dofNat c) f).n ≤ 0 := dround_nonpos hprod
  have hle : dle (fmul (dofNat c) f) d255 = true := by
    simp only [dle, d255, decide_eq_true_eq]
    have : (0 : Int) < 255 * 2 ^ (fmul (dofNat c) f).k := by positivity
    omega
  simp only [brightByte, dmin, hle, if_pos]
  simp only [sat_u8, if_pos hm]

theorem cons4_getElem {α : Type} (x1 x2 x3 x4 : α) (l : List α) (j : Nat) :
    (x1 :: x2 :: x3 :: x4 :: l)[j + 4]? = l[j]? := by
  simp [show j + 4 = j + 1 + 1 + 1 + 1 by omega]

theorem cons4_getD (x1 x2 x3 x4 : Nat) (l : List Nat) (j d : Nat) :
    (x1 :: x2 :: x3 :: x4 :: l).getD (j + 4) d = l.getD j d := by
  simp [List.getD_eq_getElem?_getD, cons4_getElem]

/-! ### C2: adjust_brightness saturates on the cast, it does not wrap -/

/-- Counterexample to C2 as stated: at buffer [100, 100, 100, 255] and factor
-1.0 the source writes 0 (the Rust float-to-int cast saturates below at 0),
while the claimed wrapping cast of min(100 * -1.0, 255.0) would give 156. -/
theorem adjust_brightness_wrap_counterexample :
    (adjust_brightness [100, 100, 100, 255] ⟨-1, 0⟩)[0]? = some 0 ∧
      wrap_u8 (dmin (fmul (dofNat 100) ⟨-1, 0⟩) d255) = 156 ∧
      (adjust_brightness [100, 100, 100, 255] ⟨-1, 0⟩)[0]? ≠
        some (wrap_u8 (dmin (fmul (dofNat 100) ⟨-1, 0⟩) d255)) := by
  refine ⟨by decide, by decide, ?_⟩
  decide

theorem adjust_brightness_chunk (f : Dy) (m : Nat) :
    ∀ (data : List Nat), 4 * m + 3 < data.length →
      (adjust_brightness data f)[4 * m]? = some (brightByte (data.getD (4 * m) 0) f) ∧
      (adjust_brightness data f)[4 * m + 1]? = some (brightByte (data.getD (4 * m + 1) 0) f) ∧
      (adjust_brightness data f)[4 * m + 2]? = some (brightByte (data.getD (4 * m + 2) 0) f) ∧
      (adjust_brightness data f)[4 * m + 3]? = data[4 * m + 3]? := by
  induction m with
  | zero =>
    intro data h
    match data with
    | [] => simp only [List.length_nil] at h; omega
    | [x] => simp only [List.length_cons, List.length_nil] at h; omega
    | [x, y] => simp only [List.length_cons, List.length_nil] at h; omega
    | [x, y, z] => simp only [List.length_cons, List.length_nil] at h; omega
    | r :: g :: b :: a :: rest => simp [adjust_brightness, List.getD]
  | succ m ih =>
    intro data h
    match data with
    | [] => simp only [List.length_nil] at h; omega
    | [x] => simp only [List.length_cons, List.length_nil] at h; omega
    | [x, y] => simp only [List.length_cons, List.length_nil] at h; omega
    | [x, y, z] => simp only [List.length_cons, List.length_nil] at h; omega
    | r :: g :: b :: a :: rest =>
      have hlen : 4 * m + 3 < rest.length := by simp at h; omega
      have hrec := ih rest hlen
      have e0 : 4 * (m + 1) = 4 * m + 4 := by omega
      have e1 : 4 * (m + 1) + 1 = 4 * m + 1 + 4 := by omega
      have e2 : 4 * (m + 1) + 2 = 4 * m + 2 + 4 := by omega
      have e3 : 4 * (m + 1) + 3 = 4 * m + 3 + 4 := by omega
      refine ⟨?_, ?_, ?_, ?_⟩
      · rw [e0]; show (brightByte r f :: brightByte g f :: brightByte b f :: a :: adjust_brightness rest f)[4 * m + 4]? = _
        rw [cons4_getElem, cons4_getD]; exact hrec.1
      · rw [e1]; show (brightByte r f :: brightByte g f :: brightByte b f :: a :: adjust_brightness rest f)[4 * m + 1 + 4]? = _
        rw [cons4_getElem, cons4_getD]; exact hrec.2.1
      · rw [e2]; show (brightByte r f :: brightByte g f :: brightByte b f :: a :: adjust_brightness rest f)[4 * m + 2 + 4]? = _
        rw [cons4_getElem, cons4_getD]; exact hrec.2.2.1
      · rw [e3]; show (brightByte r f :: brightByte g f :: brightByte b f :: a :: adjust_brightness rest f)[4 * m + 3 + 4]? = _
        rw [cons4_getElem, cons4_getElem]; exact hrec.2.2.2

/-- C2 amended: adjust_brightness writes to each colour byte of every full
chunk the SATURATING 8-bit conversion of (c as f64 * factor).min(255.0):
negative products are clamped to 0 by the Rust float-to-int cast rather than
wrapping, so every negative factor yields 0 in all colour channels; the alpha
byte is untouched; the spec examples (factor 2.0 on [100,100,100,255], and an
overflowing factor clamping to 255) hold. -/
theorem adjust_brightness_spec (data : List Nat) (f : Dy) (m : Nat) (h : 4 * m + 3 < data.length) :
    ((adjust_brightness data f)[4 * m]? = some (brightByte (data.getD (4 * m) 0) f) ∧
      (adjust_brightness data f)[4 * m + 1]? = some (brightByte (data.getD (4 * m + 1) 0) f) ∧
      (adjust_brightness data f)[4 * m + 2]? = some (brightByte (data.getD (4 * m + 2) 0) f) ∧
      (adjust_brightness data f)[4 * m + 3]? = data[4 * m + 3]?) ∧
    (dlt f d0 = true →
      (adjust_brightness data f)[4 * m]? = some 0 ∧
      (adjust_brightness data f)[4 * m + 1]? = some 0 ∧
      (adjust_brightness data f)[4 * m + 2]? = some 0) ∧
    adjust_brightness [100, 100, 100, 255] ⟨2, 0⟩ = [200, 200, 200, 255] ∧
    adjust_brightness [120, 130, 140, 250] ⟨3, 0⟩ = [255, 255, 255, 250] := by
  have hc := adjust_brightness_chunk f m data h
  refine ⟨hc, ?_, by decide, by decide⟩
  intro hf
  refine ⟨?_, ?_, ?_⟩
  · rw [hc.1, brightByte_neg _ _ hf]
  · rw [hc.2.1, brightByte_neg _ _ hf]
  · rw [hc.2.2.1, brightByte_neg _ _ hf]

/-- Witness: the theorem applied to the buffer [10, 20, 30, 40] with factor
1.0 at chunk 0; the alpha byte stays 40. -/
theorem adjust_brightness_spec_witness :
    (adjust_brightness [10, 20, 30, 40] ⟨1, 0⟩)[3]? = some 40 := by
  have h := adjust_brightness_spec [10, 20, 30, 40] ⟨1, 0⟩ 0 (by decide)
  exact h.1.2.2.2.trans (by decide)

/-! ### C3: grayscale does change some R = G = B buffers -/

/-- Counterexample to C3 as stated: the buffer [1, 1, 1, 255] has R = G = B
in its single full chunk, yet grayscale maps it to [0, 0, 0, 255], because
in f64 arithmetic 0.299 * 1 + 0.587 * 1 + 0.114 * 1 rounds to
0.9999999999999999, which truncates to 0. -/
theorem grayscale_gray_counterexample :
    grayEq [1, 1, 1, 255] = true ∧ grayscale [1, 1, 1, 255] = [0, 0, 0, 255] ∧
      grayscale [1, 1, 1, 255] ≠ [1, 1, 1, 255] := by
  refine ⟨by decide, by decide, ?_⟩
  decide

theorem grayByte_close : ∀ c < 256, grayByte c c c ≤ c ∧ c ≤ grayByte c c c + 1 := by decide

theorem grayscale_close (i : Nat) :
    ∀ data : List Nat, (∀ x ∈ data, x ≤ 255) → grayEq data = true →
      (grayscale data).getD i 0 ≤ data.getD i 0 ∧ data.getD i 0 ≤ (grayscale data).getD i 0 + 1 := by
  induction i using Nat.strong_induction_on with
  | _ i ih =>
    intro data h1 h2
    match data with
    | [] => simp [grayscale]
    | [x] => simp [grayscale]
    | [x, y] => simp [grayscale]
    | [x, y, z] => simp [grayscale]
    | r :: g :: b :: a :: rest =>
      simp only [grayEq, Bool.and_eq_true, beq_iff_eq] at h2
      obtain ⟨⟨hrg, hgb⟩, hrest⟩ := h2
      subst hrg; subst hgb
      have hr : r ≤ 255 := h1 r (by simp)
      have hclose := grayByte_close r (by omega)
      match i with
      | 0 => simpa [grayscale, List.getD] using hclose
      | 1 => simpa [grayscale, List.getD] using hclose
      | 2 => simpa [grayscale, List.getD] using hclose
      | 3 => simp [grayscale, List.getD]
      | j + 4 =>
        have hrec := ih j (by omega) rest (fun x hx => h1 x (by simp [hx])) hrest
        show (grayByte r r r :: grayByte r r r :: grayByte r r r :: a :: grayscale rest).getD (j + 4) 0 ≤ _ ∧ _
        rw [cons4_getD, cons4_getD]
        exact hrec

/-- C3 amended: on a buffer whose full chunks all satisfy R = G = B (bytes
below 256), grayscale is NOT always the identity: each byte y of the result
satisfies c - 1 ≤ y ≤ c for the corresponding input byte c (the f64 rounding
of 0.299c + 0.587c + 0.114c can fall just below c, e.g. it maps
[1, 1, 1, 255] to [0, 0, 0, 255]); the second half of the claim holds: on
[255, 0, 0, 255] all three colour channels become floor(0.299 * 255) = 76 and
alpha stays 255. -/
theorem grayscale_spec (data : List Nat) (h1 : ∀ x ∈ data, x ≤ 255) (h2 : grayEq data = true) :
    (∀ i, (grayscale data).getD i 0 ≤ data.getD i 0 ∧
      data.getD i 0 ≤ (grayscale data).getD i 0 + 1) ∧
    grayscale [255, 0, 0, 255] = [76, 76, 76, 255] ∧
    grayscale [1, 1, 1, 255] = [0, 0, 0, 255] := by
  exact ⟨fun i => grayscale_close i data h1 h2, by decide, by decide⟩

/-- Witness: the theorem applied to the gray buffer [7, 7, 7, 9]; the result
byte at index 0 can only be 6 or 7. -/
theorem grayscale_spec_witness :
    (grayscale [7, 7, 7, 9]).getD 0 0 ≤ 7 ∧ 7 ≤ (grayscale [7, 7, 7, 9]).getD 0 0 + 1 := by
  have h := grayscale_spec [7, 7, 7, 9] (by decide) (by decide)
  exact h.1 0

/-! ### Quicksort: swap lemmas -/

theorem swapL_length {α : Type} (l : List α) (i j : Nat) : (swapL l i j).length = l.length := by
  unfold swapL
  split
  · simp
  · rfl

theorem swapL_getElem_other {α : Type} (l : List α) (i j k : Nat) (h1 : k ≠ i) (h2 : k ≠ j) :
    (swapL l i j)[k]? = l[k]? := by
  unfold swapL
  split
  · rw [List.getElem?_set, if_neg (Ne.symm h2), List.getElem?_set, if_neg (Ne.symm h1)]
  · rfl

theorem swapL_getElem_left {α : Type} (l : List α) (i j : Nat) (hi : i < l.length) (hj : j < l.length) :
    (swapL l i j)[j]? = l[i]? := by
  unfold swapL
  rw [List.getElem?_eq_getElem hi, List.getElem?_eq_getElem hj]
  simp only []
  rw [List.getElem?_set, if_pos rfl, if_pos (by simpa using hj)]

theorem swapL_getElem_right {α : Type} (l : List α) (i j : Nat) (hi : i < l.length) (hj : j < l.length) :
    (swapL l i j)[i]? = l[j]? := by
  unfold swapL
  rw [List.getElem?_eq_getElem hi, List.getElem?_eq_getElem hj]
  simp only []
  by_cases hij : i = j
  · subst hij
    rw [List.getElem?_set, if_pos rfl, if_pos (by simpa using hi)]
  · rw [List.getElem?_set, if_neg (fun h => hij h.symm), List.getElem?_set, if_pos rfl,
      if_pos hi]

theorem set_get_self {α : Type} (l : List α) (i : Nat) (h : i < l.length) :
    l.set i l[i] = l := by
  apply List.ext_getElem?
  intro n
  rw [List.getElem?_set]
  by_cases hn : i = n
  · subst hn; simp [List.getElem?_eq_getElem h, h]
  · simp [hn]

theorem get_cons_set_perm {α : Type} :
    ∀ (l : List α) (m : Nat) (hm : m < l.length) (x : α),
      (l.get ⟨m, hm⟩ :: l.set m x).Perm (x :: l)
  | b :: t, 0, _, x => List.Perm.swap x b t
  | b :: t, m + 1, hm, x => by
    have ih := get_cons_set_perm t m (by simpa using hm) x
    show ((b :: t).get ⟨m + 1, hm⟩ :: b :: t.set m x).Perm (x :: b :: t)
    have s1 : ((b :: t).get ⟨m + 1, hm⟩ :: b :: t.set m x).Perm
        (b :: t.get ⟨m, by simpa using hm⟩ :: t.set m x) := List.Perm.swap _ _ _
    have s2 : (b :: t.get ⟨m, by simpa using hm⟩ :: t.set m x).Perm (b :: x :: t) := ih.cons b
    have s3 : (b :: x :: t).Perm (x :: b :: t) := List.Perm.swap _ _ _
    exact (s1.trans s2).trans s3

theorem swapL_perm {α : Type} (l : List α) (i j : Nat) (hi : i < l.length) (hj : j < l.length) :
    (swapL l i j).Perm l := by
  unfold swapL
  rw [List.getElem?_eq_getElem hi, List.getElem?_eq_getElem hj]
  simp only []
  by_cases hij : i = j
  · subst hij
    rw [List.set_set]
    exact (set_get_self l i hi).symm ▸ List.Perm.refl _
  · have hj2 : j < (l.set i (l.get ⟨j, hj⟩)).length := by simpa using hj
    have h1 := get_cons_set_perm (l.set i (l.get ⟨j, hj⟩)) j hj2 (l.get ⟨i, hi⟩)
    have hgj : (l.set i (l.get ⟨j, hj⟩)).get ⟨j, hj2⟩ = l.get ⟨j, hj⟩ := by
      simp [List.get_eq_getElem, List.getElem_set_ne, hij]
    rw [hgj] at h1
    have h2 := get_cons_set_perm l i hi (l.get ⟨j, hj⟩)
    have h3 := h1.trans h2
    exact h3.cons_inv

/-! ### Quicksort: partition loop lemmas -/

theorem getD_congr {α : Type} (l : List α) (k : Nat) (d1 d2 : α) (h : k < l.length) :
    l.getD k d1 = l.getD k d2 := by
  simp [List.getD_eq_getElem?_getD, List.getElem?_eq_getElem h]

theorem getD_eq_of_getElem_eq {α : Type} {l1 l2 : List α} {k1 k2 : Nat} (d : α)
    (h : l1[k1]? = l2[k2]?) : l1.getD k1 d = l2.getD k2 d := by
  simp [List.getD_eq_getElem?_getD, h]

theorem partLoop_length {α : Type} (ltb : α → α → Bool) (pivot : α) :
    ∀ (c : Nat) (arr : List α) (i j : Nat),
      (partLoop ltb pivot c arr i j).1.length = arr.length := by
  intro c
  induction c with
  | zero => intro arr i j; rfl
  | succ c ih =>
    intro arr i j
    simp only [partLoop]
    split
    · rw [ih, swapL_length]
    · rw [ih]

theorem partLoop_i_bounds {α : Type} (ltb : α → α → Bool) (pivot : α) :
    ∀ (c : Nat) (arr : List α) (i j : Nat),
      i ≤ (partLoop ltb pivot c arr i j).2 ∧ (partLoop ltb pivot c arr i j).2 ≤ i + c := by
  intro c
  induction c with
  | zero => intro arr i j; exact ⟨Nat.le.refl, Nat.le.refl⟩
  | succ c ih =>
    intro arr i j
    simp only [partLoop]
    split
    · have h := ih (swapL arr i j) (i + 1) (j + 1)
      exact ⟨by omega, by omega⟩
    · have h := ih arr i (j + 1)
      exact ⟨by omega, by omega⟩

theorem partLoop_perm {α : Type} (ltb : α → α → Bool) (pivot : α) :
    ∀ (c : Nat) (arr : List α) (i j : Nat), i ≤ j → j + c ≤ arr.length →
      (partLoop ltb pivot c arr i j).1.Perm arr := by
  intro c
  induction c with
  | zero => intro arr i j _ _; exact List.Perm.refl _
  | succ c ih =>
    intro arr i j hij hlen
    simp only [partLoop]
    split
    · have hperm := swapL_perm arr i j (by omega) (by omega)
      have hrec := ih (swapL arr i j) (i + 1) (j + 1) (by omega)
        (by rw [swapL_length]; omega)
      exact hrec.trans hperm
    · exact ih arr i (j + 1) (by omega) (by omega)

theorem partLoop_outside {α : Type} (ltb : α → α → Bool) (pivot : α) :
    ∀ (c : Nat) (arr : List α) (i j k : Nat), i ≤ j → (k < i ∨ j + c ≤ k) →
      (partLoop ltb pivot c arr i j).1[k]? = arr[k]? := by
  intro c
  induction c with
  | zero => intro arr i j k _ _; rfl
  | succ c ih =>
    intro arr i j k hij hk
    simp only [partLoop]
    split
    · have hrec := ih (swapL arr i j) (i + 1) (j + 1) k (by omega) (by omega)
      rw [hrec, swapL_getElem_other arr i j k (by omega) (by omega)]
    · exact ih arr i (j + 1) k (by omega) (by omega)

theorem partLoop_inv {α : Type} (ltb : α → α → Bool) (pivot : α) (lowb : Nat) :
    ∀ (c : Nat) (arr : List α) (i j : Nat), i ≤ j → j + c ≤ arr.length → lowb ≤ i →
      (∀ k, lowb ≤ k → k < i → ltb (arr.getD k pivot) pivot = true) →
      (∀ k, i ≤ k → k < j → ltb (arr.getD k pivot) pivot = false) →
      (∀ k, lowb ≤ k → k < (partLoop ltb pivot c arr i j).2 →
        ltb ((partLoop ltb pivot c arr i j).1.getD k pivot) pivot = true) ∧
      (∀ k, (partLoop ltb pivot c arr i j).2 ≤ k → k < j + c →
        ltb ((partLoop ltb pivot c arr i j).1.getD k pivot) pivot = false) := by
  intro c
  induction c with
  | zero =>
    intro arr i j hij hlen hlow hleft hmid
    refine ⟨fun k hk1 hk2 => hleft k hk1 hk2, fun k hk1 hk2 => hmid k hk1 ?_⟩
    omega
  | succ c ih =>
    intro arr i j hij hlen hlow hleft hmid
    simp only [partLoop]
    split
    case isTrue hcond =>
      have hi : i < arr.length := by omega
      have hj : j < arr.length := by omega
      have hswaplen : (swapL arr i j).length = arr.length := swapL_length arr i j
      have hleft2 : ∀ k, lowb ≤ k → k < i + 1 → ltb ((swapL arr i j).getD k pivot) pivot = true := by
        intro k hk1 hk2
        by_cases hk : k = i
        · subst hk
          rw [getD_eq_of_getElem_eq pivot (swapL_getElem_right arr k j hi hj)]
          exact hcond
        · have hki : k < i := by omega
          rw [getD_eq_of_getElem_eq pivot (swapL_getElem_other arr i j k hk (by omega))]
          exact hleft k hk1 hki
      have hmid2 : ∀ k, i + 1 ≤ k → k < j + 1 → ltb ((swapL arr i j).getD k pivot) pivot = false := by
        intro k hk1 hk2
        by_cases hk : k = j
        · subst hk
          rw [getD_eq_of_getElem_eq pivot (swapL_getElem_left arr i k hi hj)]
          exact hmid i (by omega) (by omega)
        · rw [getD_eq_of_getElem_eq pivot (swapL_getElem_other arr i j k (by omega) hk)]
          exact hmid k (by omega) (by omega)
      have hrec := ih (swapL arr i j) (i + 1) (j + 1) (by omega) (by omega) (by omega) hleft2 hmid2
      refine ⟨hrec.1, fun k hk1 hk2 => hrec.2 k hk1 ?_⟩
      omega
    case isFalse hcond =>
      have hmid2 : ∀ k, i ≤ k → k < j + 1 → ltb (arr.getD k pivot) pivot = false := by
        intro k hk1 hk2
        by_cases hk : k = j
        · subst hk
          simpa using hcond
        · exact hmid k hk1 (by omega)
      have hrec := ih arr i (j + 1) (by omega) (by omega) hlow hleft hmid2
      refine ⟨hrec.1, fun k hk1 hk2 => hrec.2 k hk1 ?_⟩
      omega

/-! ### Quicksort: partition lemmas -/

theorem partition_length {α : Type} [Inhabited α] (ltb : α → α → Bool) (arr : List α)
    (low high : Nat) : (partition ltb arr low high).1.length = arr.length := by
  unfold partition
  simp only []
  rw [swapL_length, partLoop_length]

theorem partition_snd_lower {α : Type} [Inhabited α] (ltb : α → α → Bool) (arr : List α)
    (low high : Nat) : low ≤ (partition ltb arr low high).2 :=
  (partLoop_i_bounds ltb (arr.getD high default) (high - low) arr low low).1

theorem partition_snd_upper {α : Type} [Inhabited α] (ltb : α → α → Bool) (arr : List α)
    (low high : Nat) (h : low ≤ high) : (partition ltb arr low high).2 ≤ high := by
  have hb := (partLoop_i_bounds ltb (arr.getD high default) (high - low) arr low low).2
  show (partLoop ltb (arr.getD high default) (high - low) arr low low).2 ≤ high
  omega

theorem partition_perm {α : Type} [Inhabited α] (ltb : α → α → Bool) (arr : List α)
    (low high : Nat) (h1 : low ≤ high) (h2 : high < arr.length) :
    (partition ltb arr low high).1.Perm arr := by
  unfold partition
  simp only []
  have hp := partLoop_perm ltb (arr.getD high default) (high - low) arr low low
    (Nat.le.refl) (by omega)
  have hlen := partLoop_length ltb (arr.getD high default) (high - low) arr low low
  have hi2 := partLoop_i_bounds ltb (arr.getD high default) (high - low) arr low low
  have hsw := swapL_perm (partLoop ltb (arr.getD high default) (high - low) arr low low).1
    (partLoop ltb (arr.getD high default) (high - low) arr low low).2 high
    (by omega) (by omega)
  exact hsw.trans hp

theorem partition_outside {α : Type} [Inhabited α] (ltb : α → α → Bool) (arr : List α)
    (low high : Nat) (h1 : low ≤ high) (k : Nat) (hk : k < low ∨ high < k) :
    (partition ltb arr low high).1[k]? = arr[k]? := by
  unfold partition
  simp only []
  have hi2 := partLoop_i_bounds ltb (arr.getD high default) (high - low) arr low low
  rw [swapL_getElem_other _ _ _ k (by omega) (by omega)]
  exact partLoop_outside ltb (arr.getD high default) (high - low) arr low low k
    (Nat.le.refl) (by omega)

theorem partition_get_pi {α : Type} [Inhabited α] (ltb : α → α → Bool) (arr : List α)
    (low high : Nat) (h1 : low ≤ high) (h2 : high < arr.length) :
    (partition ltb arr low high).1.getD (partition ltb arr low high).2 default =
      arr.getD high default := by
  have hi2 := partLoop_i_bounds ltb (arr.getD high default) (high - low) arr low low
  have hlen := partLoop_length ltb (arr.getD high default) (high - low) arr low low
  have hout := partLoop_outside ltb (arr.getD high default) (high - low) arr low low high
    (Nat.le.refl) (by omega)
  refine getD_eq_of_getElem_eq default ?_
  show (swapL _ _ high)[(partLoop ltb (arr.getD high default) (high - low) arr low low).2]? = _
  rw [swapL_getElem_right _ _ _ (by omega) (by omega), hout]

theorem partition_left {α : Type} [Inhabited α] (ltb : α → α → Bool) (arr : List α)
    (low high : Nat) (h1 : low ≤ high) (h2 : high < arr.length) (k : Nat)
    (hk1 : low ≤ k) (hk2 : k < (partition ltb arr low high).2) :
    ltb ((partition ltb arr low high).1.getD k default) (arr.getD high default) = true := by
  have hi2 := partLoop_i_bounds ltb (arr.getD high default) (high - low) arr low low
  have hlen := partLoop_length ltb (arr.getD high default) (high - low) arr low low
  have hinv := partLoop_inv ltb (arr.getD high default) low (high - low) arr low low
    (Nat.le.refl) (by omega) (Nat.le.refl)
    (fun k2 hka hkb => absurd (Nat.lt_of_le_of_lt hka hkb) (Nat.lt_irrefl low))
    (fun k2 hka hkb => absurd (Nat.lt_of_le_of_lt hka hkb) (Nat.lt_irrefl low))
  have hk2b : k < (partLoop ltb (arr.getD high default) (high - low) arr low low).2 := hk2
  have hval := hinv.1 k hk1 hk2b
  have heq : (partition ltb arr low high).1.getD k default =
      (partLoop ltb (arr.getD high default) (high - low) arr low low).1.getD k
        (arr.getD high default) := by
    refine getD_eq_of_getElem_eq default ?_ |>.trans
      (getD_congr _ k (arr.getD high default) default (by omega)).symm
    show (swapL _ _ high)[k]? = _
    rw [swapL_getElem_other _ _ _ k (by omega) (by omega)]
  rw [heq]
  exact hval

theorem partition_right {α : Type} [Inhabited α] (ltb : α → α → Bool) (arr : List α)
    (low high : Nat) (h1 : low ≤ high) (h2 : high < arr.length) (k : Nat)
    (hk1 : (partition ltb arr low high).2 < k) (hk2 : k ≤ high) :
    ltb ((partition ltb arr low high).1.getD k default) (arr.getD high default) = false := by
  have hi2 := partLoop_i_bounds ltb (arr.getD high default) (high - low) arr low low
  have hlen := partLoop_length ltb (arr.getD high default) (high - low) arr low low
  have hinv := partLoop_inv ltb (arr.getD high default) low (high - low) arr low low
    (Nat.le.refl) (by omega) (Nat.le.refl)
    (fun k2 hka hkb => absurd (Nat.lt_of_le_of_lt hka hkb) (Nat.lt_irrefl low))
    (fun k2 hka hkb => absurd (Nat.lt_of_le_of_lt hka hkb) (Nat.lt_irrefl low))
  have hk1b : (partLoop ltb (arr.getD high default) (high - low) arr low low).2 < k := hk1
  by_cases hkh : k = high
  · subst hkh
    have hvr : ltb ((partLoop ltb (arr.getD k default) (k - low) arr low low).1.getD
        (partLoop ltb (arr.getD k default) (k - low) arr low low).2
        (arr.getD k default)) (arr.getD k default) = false :=
      hinv.2 _ (Nat.le.refl) (by omega)
    have heq : (partition ltb arr low k).1.getD k default =
        (partLoop ltb (arr.getD k default) (k - low) arr low low).1.getD
          (partLoop ltb (arr.getD k default) (k - low) arr low low).2
          (arr.getD k default) := by
      refine getD_eq_of_getElem_eq default ?_ |>.trans
        (getD_congr _ _ (arr.getD k default) default (by omega)).symm
      show (swapL _ _ k)[k]? = _
      rw [swapL_getElem_left _ _ _ (by omega) (by omega)]
    rw [heq]
    exact hvr
  · have hvr := hinv.2 k (by omega) (by omega)
    have heq : (partition ltb arr low high).1.getD k default =
        (partLoop ltb (arr.getD high default) (high - low) arr low low).1.getD k
          (arr.getD high default) := by
      refine getD_eq_of_getElem_eq default ?_ |>.trans
        (getD_congr _ k (arr.getD high default) default (by omega)).symm
      show (swapL _ _ high)[k]? = _
      rw [swapL_getElem_other _ _ _ k (by omega) (by omega)]
    rw [heq]
    exact hvr

/-! ### Segment multisets -/

theorem seg_getElem {α : Type} (l : List α) (low high t : Nat) :
    (seg l low high)[t]? = if t < high + 1 - low then l[low + t]? else none := by
  unfold seg
  rw [List.getElem?_take]
  split
  · rw [List.getElem?_drop]
  · rfl

theorem take_congr {α : Type} {l1 l2 : List α} (p : Nat)
    (h : ∀ k, k < p → l1[k]? = l2[k]?) : l1.take p = l2.take p := by
  apply List.ext_getElem?
  intro n
  rw [List.getElem?_take, List.getElem?_take]
  split
  · exact h n (by omega)
  · rfl

theorem drop_congr {α : Type} {l1 l2 : List α} (p : Nat)
    (h : ∀ k, p ≤ k → l1[k]? = l2[k]?) : l1.drop p = l2.drop p := by
  apply List.ext_getElem?
  intro n
  rw [List.getElem?_drop, List.getElem?_drop]
  exact h (p + n) (by omega)

theorem seg_decomp {α : Type} (l : List α) (low high : Nat) (h : low ≤ high + 1) :
    l = l.take low ++ (seg l low high ++ l.drop (high + 1)) := by
  conv_lhs => rw [← List.take_append_drop low l]
  congr 1
  unfold seg
  conv_lhs => rw [← List.take_append_drop (high + 1 - low) (l.drop low)]
  congr 1
  rw [List.drop_drop]
  congr 1
  omega

theorem seg_multiset_eq {α : Type} (l1 l2 : List α) (low high : Nat)
    (hperm : l1.Perm l2) (hout : ∀ k, k < low ∨ high < k → l1[k]? = l2[k]?) :
    (↑(seg l1 low high) : Multiset α) = ↑(seg l2 low high) := by
  by_cases hc : low ≤ high + 1
  · have htake : l1.take low = l2.take low :=
      take_congr low (fun k hk => hout k (Or.inl hk))
    have hdrop : l1.drop (high + 1) = l2.drop (high + 1) :=
      drop_congr (high + 1) (fun k hk => hout k (Or.inr (by omega)))
    have hd1 := seg_decomp l1 low high hc
    have hd2 := seg_decomp l2 low high hc
    have hms : (↑l1 : Multiset α) = ↑l2 := Multiset.coe_eq_coe.mpr hperm
    rw [hd1, hd2, htake, hdrop] at hms
    rw [← Multiset.coe_add, ← Multiset.coe_add, ← Multiset.coe_add, ← Multiset.coe_add] at hms
    have h1 := add_left_cancel hms
    exact add_right_cancel h1
  · have hz : high + 1 - low = 0 := by omega
    unfold seg
    rw [hz]
    rfl

theorem getD_mem_seg {α : Type} (l : List α) (low high k : Nat) (d : α)
    (hk1 : low ≤ k) (hk2 : k ≤ high) (hk3 : k < l.length) :
    l.getD k d ∈ seg l low high := by
  rw [List.mem_iff_getElem?]
  refine ⟨k - low, ?_⟩
  rw [seg_getElem, if_pos (by omega), show low + (k - low) = k by omega,
    List.getElem?_eq_getElem hk3, List.getD_eq_getElem?_getD, List.getElem?_eq_getElem hk3]
  rfl

theorem seg_mem_exists {α : Type} {l : List α} {low high : Nat} {x : α} (d : α)
    (h : x ∈ seg l low high) :
    ∃ k, low ≤ k ∧ k ≤ high ∧ k < l.length ∧ l.getD k d = x := by
  rw [List.mem_iff_getElem?] at h
  obtain ⟨t, ht⟩ := h
  rw [seg_getElem] at ht
  by_cases hc : t < high + 1 - low
  · rw [if_pos hc] at ht
    obtain ⟨hlt, hval⟩ := List.getElem?_eq_some_iff.mp ht
    refine ⟨low + t, by omega, by omega, hlt, ?_⟩
    rw [List.getD_eq_getElem?_getD, List.getElem?_eq_getElem hlt]
    exact hval
  · rw [if_neg hc] at ht
    exact absurd ht (by simp)

/-! ### Quicksort: the recursive sort is a sorting permutation on its range -/

theorem qr_spec {α : Type} [Inhabited α] (ltb : α → α → Bool)
    (hirr : ∀ a, ltb a a = false)
    (htr : ∀ a b c, ltb a b = true → ltb b c = true → ltb a c = true) :
    ∀ (meas fuel : Nat) (arr : List α) (low high : Nat),
      high - low ≤ meas → high - low ≤ fuel → high < arr.length →
      (quicksort_recursive ltb fuel arr low high).length = arr.length ∧
      (quicksort_recursive ltb fuel arr low high).Perm arr ∧
      (∀ k, k < low ∨ high < k → (quicksort_recursive ltb fuel arr low high)[k]? = arr[k]?) ∧
      (∀ k1 k2, low ≤ k1 → k1 ≤ k2 → k2 ≤ high →
        ltb ((quicksort_recursive ltb fuel arr low high).getD k2 default)
          ((quicksort_recursive ltb fuel arr low high).getD k1 default) = false) := by
  have hasym : ∀ a b, ltb a b = true → ltb b a = false := by
    intro a b hab
    cases hv : ltb b a
    · rfl
    · have hcontr := htr a b a hab hv
      rw [hirr a] at hcontr
      exact absurd hcontr (by simp)
  intro meas
  induction meas using Nat.strong_induction_on with
  | _ meas ih =>
    intro fuel arr low high hm hf hh
    by_cases hlh : low < high
    case neg =>
      have hQ : quicksort_recursive ltb fuel arr low high = arr := by
        cases fuel with
        | zero => rfl
        | succ f => simp [quicksort_recursive, hlh]
      rw [hQ]
      refine ⟨rfl, List.Perm.refl _, fun k _ => rfl, ?_⟩
      intro k1 k2 hk1 hk12 hk2
      have he : k1 = k2 := by omega
      subst he
      exact hirr _
    case pos =>
      obtain ⟨f, rfl⟩ : ∃ f, fuel = f + 1 := ⟨fuel - 1, by omega⟩
      have hunfold : quicksort_recursive ltb (f + 1) arr low high =
          quicksort_recursive ltb f
            (if 0 < (partition ltb arr low high).2 then
              quicksort_recursive ltb f (partition ltb arr low high).1 low
                ((partition ltb arr low high).2 - 1)
            else (partition ltb arr low high).1)
            ((partition ltb arr low high).2 + 1) high := by
      -- unfold one step of the recursion
        simp only [quicksort_recursive, if_pos hlh]
      rw [hunfold]
      have pil : low ≤ (partition ltb arr low high).2 := partition_snd_lower ltb arr low high
      have piu : (partition ltb arr low high).2 ≤ high :=
        partition_snd_upper ltb arr low high (by omega)
      have plen : (partition ltb arr low high).1.length = arr.length :=
        partition_length ltb arr low high
      have pperm : (partition ltb arr low high).1.Perm arr :=
        partition_perm ltb arr low high (by omega) hh
      have pout : ∀ k, k < low ∨ high < k →
          (partition ltb arr low high).1[k]? = arr[k]? :=
        fun k hk => partition_outside ltb arr low high (by omega) k hk
      have pgetpi : (partition ltb arr low high).1.getD (partition ltb arr low high).2 default =
          arr.getD high default := partition_get_pi ltb arr low high (by omega) hh
      have pleft : ∀ k, low ≤ k → k < (partition ltb arr low high).2 →
          ltb ((partition ltb arr low high).1.getD k default) (arr.getD high default) = true :=
        fun k hk1 hk2 => partition_left ltb arr low high (by omega) hh k hk1 hk2
      have pright : ∀ k, (partition ltb arr low high).2 < k → k ≤ high →
          ltb ((partition ltb arr low high).1.getD k default) (arr.getD high default) = false :=
        fun k hk1 hk2 => partition_right ltb arr low high (by omega) hh k hk1 hk2
      set P := partition ltb arr low high with hP
      set pi := P.2 with hpi
      set A2 := (if 0 < pi then quicksort_recursive ltb f P.1 low (pi - 1) else P.1) with hA2
      have hA2bundle : A2.length = arr.length ∧ A2.Perm P.1 ∧
          (∀ k, k < low ∨ pi ≤ k → A2[k]? = P.1[k]?) ∧
          (∀ k1 k2, low ≤ k1 → k1 ≤ k2 → k2 < pi →
            ltb (A2.getD k2 default) (A2.getD k1 default) = false) := by
        by_cases hpi0 : 0 < pi
        · rw [if_pos hpi0] at hA2
          have hihL := ih (pi - 1 - low) (by omega) f P.1 low (pi - 1)
            (by omega) (by omega) (by omega)
          rw [← hA2] at hihL
          refine ⟨hihL.1.trans plen, hihL.2.1, ?_, ?_⟩
          · intro k hk
            refine hihL.2.2.1 k ?_
            rcases hk with h | h
            · exact Or.inl h
            · exact Or.inr (by omega)
          · intro k1 k2 hk1 hk12 hk2
            exact hihL.2.2.2 k1 k2 hk1 hk12 (by omega)
        · rw [if_neg hpi0] at hA2
          rw [hA2]
          exact ⟨plen, List.Perm.refl _, fun k _ => rfl,
            fun k1 k2 _ _ hk2 => absurd hk2 (by omega)⟩
      obtain ⟨hA2len, hA2perm, hA2out, hA2sorted⟩ := hA2bundle
      have hihR := ih (high - (pi + 1)) (by omega) f A2 (pi + 1) high
        (by omega) (by omega) (by rw [hA2len]; omega)
      obtain ⟨hA3len, hA3perm, hA3out, hA3sorted⟩ := hihR
      refine ⟨hA3len.trans hA2len, hA3perm.trans (hA2perm.trans pperm), ?_, ?_⟩
      · intro k hk
        have h3 : (quicksort_recursive ltb f A2 (pi + 1) high)[k]? = A2[k]? := by
          refine hA3out k ?_
          rcases hk with h | h
          · exact Or.inl (by omega)
          · exact Or.inr h
        have h2 : A2[k]? = P.1[k]? := by
          refine hA2out k ?_
          rcases hk with h | h
          · exact Or.inl h
          · exact Or.inr (by omega)
        exact (h3.trans h2).trans (pout k hk)
      · have hpivA3 : (quicksort_recursive ltb f A2 (pi + 1) high).getD pi default =
            arr.getD high default := by
          have e3 : (quicksort_recursive ltb f A2 (pi + 1) high)[pi]? = A2[pi]? :=
            hA3out pi (Or.inl (by omega))
          have e2 : A2[pi]? = P.1[pi]? := hA2out pi (Or.inr (Nat.le.refl))
          exact (getD_eq_of_getElem_eq default (e3.trans e2)).trans pgetpi
        have hleftA3 : ∀ k, low ≤ k → k < pi →
            ltb ((quicksort_recursive ltb f A2 (pi + 1) high).getD k default)
              (arr.getD high default) = true := by
          intro k hk1 hk2
          have e3 : (quicksort_recursive ltb f A2 (pi + 1) high)[k]? = A2[k]? :=
            hA3out k (Or.inl (by omega))
          rw [getD_eq_of_getElem_eq default e3]
          have hms := seg_multiset_eq A2 P.1 low (pi - 1) hA2perm
            (fun k2 hk => hA2out k2 (by
              rcases hk with h | h
              · exact Or.inl h
              · exact Or.inr (by omega)))
          have hmem : A2.getD k default ∈ seg A2 low (pi - 1) :=
            getD_mem_seg A2 low (pi - 1) k default hk1 (by omega) (by rw [hA2len]; omega)
          have hmem2 : A2.getD k default ∈ seg P.1 low (pi - 1) := by
            have hmc := Multiset.mem_coe.mpr hmem
            rw [hms] at hmc
            exact Multiset.mem_coe.mp hmc
          obtain ⟨k3, hk31, hk32, _, hk34⟩ := seg_mem_exists default hmem2
          rw [← hk34]
          exact pleft k3 hk31 (by omega)
        have hrightA3 : ∀ k, pi < k → k ≤ high →
            ltb ((quicksort_recursive ltb f A2 (pi + 1) high).getD k default)
              (arr.getD high default) = false := by
          intro k hk1 hk2
          have hms := seg_multiset_eq (quicksort_recursive ltb f A2 (pi + 1) high)
            A2 (pi + 1) high hA3perm (fun k2 hk => hA3out k2 hk)
          have hmem : (quicksort_recursive ltb f A2 (pi + 1) high).getD k default ∈
              seg (quicksort_recursive ltb f A2 (pi + 1) high) (pi + 1) high :=
            getD_mem_seg _ _ _ k default (by omega) hk2 (by rw [hA3len, hA2len]; omega)
          have hmem2 : (quicksort_recursive ltb f A2 (pi + 1) high).getD k default ∈
              seg A2 (pi + 1) high := by
            have hmc := Multiset.mem_coe.mpr hmem
            rw [hms] at hmc
            exact Multiset.mem_coe.mp hmc
          obtain ⟨k3, hk31, hk32, _, hk34⟩ := seg_mem_exists default hmem2
          rw [← hk34]
          have e2 : A2[k3]? = P.1[k3]? := hA2out k3 (Or.inr (by omega))
          rw [getD_eq_of_getElem_eq default e2]
          exact pright k3 (by omega) hk32
        have hsortLeft : ∀ k1 k2, low ≤ k1 → k1 ≤ k2 → k2 < pi →
            ltb ((quicksort_recursive ltb f A2 (pi + 1) high).getD k2 default)
              ((quicksort_recursive ltb f A2 (pi + 1) high).getD k1 default) = false := by
          intro k1 k2 hk1 hk12 hk2
          have e1 : (quicksort_recursive ltb f A2 (pi + 1) high)[k1]? = A2[k1]? :=
            hA3out k1 (Or.inl (by omega))
          have e2 : (quicksort_recursive ltb f A2 (pi + 1) high)[k2]? = A2[k2]? :=
            hA3out k2 (Or.inl (by omega))
          rw [getD_eq_of_getElem_eq default e1, getD_eq_of_getElem_eq default e2]
          exact hA2sorted k1 k2 hk1 hk12 hk2
        intro k1 k2 hk1 hk12 hk2
        by_cases hc2 : k2 < pi
        · exact hsortLeft k1 k2 hk1 hk12 hc2
        · by_cases hc2e : k2 = pi
          · subst hc2e
            by_cases hc1 : k1 < pi
            · rw [hpivA3]
              exact hasym _ _ (hleftA3 k1 hk1 hc1)
            · have he : k1 = pi := by omega
              subst he
              exact hirr _
          · have hc2g : pi < k2 := by omega
            by_cases hc1 : k1 < pi
            · have hy := hrightA3 k2 hc2g hk2
              have hx := hleftA3 k1 hk1 hc1
              cases hv : ltb ((quicksort_recursive ltb f A2 (pi + 1) high).getD k2 default)
                ((quicksort_recursive ltb f A2 (pi + 1) high).getD k1 default)
              · rfl
              · have hcontr := htr _ _ _ hv hx
                rw [hy] at hcontr
                exact absurd hcontr (by simp)
            · by_cases hc1e : k1 = pi
              · subst hc1e
                rw [hpivA3]
                exact hrightA3 k2 hc2g hk2
              · exact hA3sorted k1 k2 (by omega) hk12 hk2

/-! ### Quicksort: length preservation and fuel irrelevance for any comparison -/

theorem qr_length {α : Type} [Inhabited α] (ltb : α → α → Bool) :
    ∀ (fuel : Nat) (arr : List α) (low high : Nat),
      (quicksort_recursive ltb fuel arr low high).length = arr.length := by
  intro fuel
  induction fuel with
  | zero => intro arr low high; rfl
  | succ f ih =>
    intro arr low high
    simp only [quicksort_recursive]
    split
    · rw [ih]
      split
      · rw [ih, partition_length]
      · rw [partition_length]
    · rfl

theorem qr_fuel_irrel {α : Type} [Inhabited α] (ltb : α → α → Bool) :
    ∀ (meas f g : Nat) (arr : List α) (low high : Nat),
      high - low ≤ meas → high - low ≤ f → high - low ≤ g →
      quicksort_recursive ltb f arr low high = quicksort_recursive ltb g arr low high := by
  intro meas
  induction meas using Nat.strong_induction_on with
  | _ meas ih =>
    intro f g arr low high hm hf hg
    by_cases hlh : low < high
    case neg =>
      have hQ : ∀ fl : Nat, quicksort_recursive ltb fl arr low high = arr := by
        intro fl
        cases fl with
        | zero => rfl
        | succ fl2 => simp [quicksort_recursive, hlh]
      rw [hQ f, hQ g]
    case pos =>
      obtain ⟨f2, rfl⟩ : ∃ f2, f = f2 + 1 := ⟨f - 1, by omega⟩
      obtain ⟨g2, rfl⟩ : ∃ g2, g = g2 + 1 := ⟨g - 1, by omega⟩
      have pil : low ≤ (partition ltb arr low high).2 := partition_snd_lower ltb arr low high
      have piu : (partition ltb arr low high).2 ≤ high :=
        partition_snd_upper ltb arr low high (by omega)
      simp only [quicksort_recursive, if_pos hlh]
      have hA2eq :
          (if 0 < (partition ltb arr low high).2 then
            quicksort_recursive ltb f2 (partition ltb arr low high).1 low
              ((partition ltb arr low high).2 - 1)
          else (partition ltb arr low high).1) =
          (if 0 < (partition ltb arr low high).2 then
            quicksort_recursive ltb g2 (partition ltb arr low high).1 low
              ((partition ltb arr low high).2 - 1)
          else (partition ltb arr low high).1) := by
        split
        · exact ih ((partition ltb arr low high).2 - 1 - low) (by omega) f2 g2 _ _ _
            (by omega) (by omega) (by omega)
        · rfl
      rw [hA2eq]
      exact ih (high - ((partition ltb arr low high).2 + 1)) (by omega) f2 g2 _ _ _
        (by omega) (by omega) (by omega)

/-! ### The float comparison is an irreflexive transitive strict order -/

theorem dlt_irrefl (x : Dy) : dlt x x = false := by
  simp [dlt]

theorem dlt_trans (a b c : Dy) (h1 : dlt a b = true) (h2 : dlt b c = true) :
    dlt a c = true := by
  simp only [dlt, decide_eq_true_eq] at h1 h2 ⊢
  have c1 : a.n * 2 ^ b.k * 2 ^ c.k < b.n * 2 ^ a.k * 2 ^ c.k :=
    mul_lt_mul_of_pos_right h1 (by positivity)
  have c2 : b.n * 2 ^ c.k * 2 ^ a.k < c.n * 2 ^ b.k * 2 ^ a.k :=
    mul_lt_mul_of_pos_right h2 (by positivity)
  have c3 : a.n * 2 ^ c.k * 2 ^ b.k < c.n * 2 ^ a.k * 2 ^ b.k := by
    calc a.n * 2 ^ c.k * 2 ^ b.k = a.n * 2 ^ b.k * 2 ^ c.k := by ring
      _ < b.n * 2 ^ a.k * 2 ^ c.k := c1
      _ = b.n * 2 ^ c.k * 2 ^ a.k := by ring
      _ < c.n * 2 ^ b.k * 2 ^ a.k := c2
      _ = c.n * 2 ^ a.k * 2 ^ b.k := by ring
  exact lt_of_mul_lt_mul_right c3 (by positivity)

theorem dle_of_dlt_eq_false (a b : Dy) (h : dlt b a = false) : dle a b = true := by
  simp only [dlt, decide_eq_false_iff_not, not_lt] at h
  simp only [dle, decide_eq_true_eq]
  exact h

/-! ### C1: quicksort sorts and permutes -/

/-- C1: for every sequence of non-NaN doubles (modelled as dyadic rationals:
every finite f64 is one, and the comparison fltLt is the numeric strict
order, which is exactly the f64 comparison on non-NaN values), quicksort
returns a permutation of the input — same length, same multiset of values —
that is non-decreasing in the numeric order dle. -/
theorem quicksort_sorts (l : List Dy) :
    (quicksort fltLt l).Perm l ∧
    (↑(quicksort fltLt l) : Multiset Dy) = ↑l ∧
    (quicksort fltLt l).length = l.length ∧
    (∀ k1 k2, k1 ≤ k2 → k2 < (quicksort fltLt l).length →
      dle ((quicksort fltLt l).getD k1 d0) ((quicksort fltLt l).getD k2 d0) = true) := by
  have hirr : ∀ a : Dy, fltLt a a = false := fun a => dlt_irrefl a
  have htr : ∀ a b c : Dy, fltLt a b = true → fltLt b c = true → fltLt a c = true :=
    fun a b c h1 h2 => dlt_trans a b c h1 h2
  by_cases hlen : l.length ≤ 1
  · have hQ : quicksort fltLt l = l := by
      unfold quicksort
      rw [if_pos hlen]
    rw [hQ]
    refine ⟨List.Perm.refl _, rfl, rfl, ?_⟩
    intro k1 k2 hk12 hk2
    have he : k1 = k2 := by omega
    subst he
    exact dle_of_dlt_eq_false _ _ (dlt_irrefl _)
  · have hQ : quicksort fltLt l = quicksort_recursive fltLt l.length l 0 (l.length - 1) := by
      unfold quicksort
      rw [if_neg hlen]
    have hspec := qr_spec fltLt hirr htr (l.length - 1) l.length l 0 (l.length - 1)
      (by omega) (by omega) (by omega)
    rw [hQ]
    refine ⟨hspec.2.1, Multiset.coe_eq_coe.mpr hspec.2.1, hspec.1, ?_⟩
    intro k1 k2 hk12 hk2
    rw [hspec.1] at hk2
    have hs := hspec.2.2.2 k1 k2 (by omega) hk12 (by omega)
    exact dle_of_dlt_eq_false _ _ hs

/-! ### C10: termination structure of the recursion -/

/-- C10: for every comparison function (including the f64 comparison in the
presence of NaN, where comparisons can return false both ways) and every
slice, the partition index pi returned on a range low < high satisfies
low ≤ pi ≤ high, so both recursive sub-ranges (low, pi - 1) — guarded by
0 < pi, which prevents the unsigned index pi - 1 from underflowing — and
(pi + 1, high) are strictly smaller than (low, high) in the measure
high - low; consequently the recursion is well founded: any fuel of at
least high - low (in particular the slice length used by quicksort) computes
the same, fuel-independent result. -/
theorem quicksort_recursive_terminates {α : Type} [Inhabited α] (ltb : α → α → Bool)
    (arr : List α) (low high : Nat) (h : low < high) :
    low ≤ (partition ltb arr low high).2 ∧
    (partition ltb arr low high).2 ≤ high ∧
    (0 < (partition ltb arr low high).2 →
      (partition ltb arr low high).2 - 1 - low < high - low) ∧
    high - ((partition ltb arr low high).2 + 1) < high - low ∧
    (∀ fuel, high - low ≤ fuel →
      quicksort_recursive ltb fuel arr low high =
        quicksort_recursive ltb (high - low) arr low high) := by
  have pil : low ≤ (partition ltb arr low high).2 := partition_snd_lower ltb arr low high
  have piu : (partition ltb arr low high).2 ≤ high :=
    partition_snd_upper ltb arr low high (by omega)
  refine ⟨pil, piu, by omega, by omega, ?_⟩
  intro fuel hfuel
  exact qr_fuel_irrel ltb (high - low) fuel (high - low) arr low high
    (Nat.le.refl) hfuel (Nat.le.refl)

/-- Witness: the termination bounds evaluated on the integer slice [3, 1, 2]
over the full range, with surplus fuel giving the same result. -/
theorem quicksort_recursive_terminates_witness :
    (partition (fun a b : Int => decide (a < b)) [3, 1, 2] 0 2).2 ≤ 2 ∧
      quicksort_recursive (fun a b : Int => decide (a < b)) 7 [3, 1, 2] 0 2 =
        quicksort_recursive (fun a b : Int => decide (a < b)) 2 [3, 1, 2] 0 2 := by
  have h := quicksort_recursive_terminates (fun a b : Int => decide (a < b)) [3, 1, 2] 0 2
    (by omega)
  exact ⟨h.2.1, h.2.2.2.2 7 (by omega)⟩

/-! ### C8: frame effects of the in-place kernels -/

theorem quicksort_length {α : Type} [Inhabited α] (ltb : α → α → Bool) (l : List α) :
    (quicksort ltb l).length = l.length := by
  unfold quicksort
  split
  · rfl
  · rw [qr_length]

theorem grayscale_length : ∀ data : List Nat, (grayscale data).length = data.length
  | [] => rfl
  | [_] => rfl
  | [_, _] => rfl
  | [_, _, _] => rfl
  | r :: g :: b :: a :: rest => by
    show (grayByte r g b :: grayByte r g b :: grayByte r g b :: a :: grayscale rest).length =
      (r :: g :: b :: a :: rest).length
    simp [grayscale_length rest]

theorem adjust_brightness_length :
    ∀ (data : List Nat) (f : Dy), (adjust_brightness data f).length = data.length
  | [], _ => rfl
  | [_], _ => rfl
  | [_, _], _ => rfl
  | [_, _, _], _ => rfl
  | r :: g :: b :: a :: rest, f => by
    show (brightByte r f :: brightByte g f :: brightByte b f :: a ::
      adjust_brightness rest f).length = (r :: g :: b :: a :: rest).length
    simp [adjust_brightness_length rest f]

theorem grayscale_preserve :
    ∀ (data : List Nat) (i : Nat), i % 4 = 3 ∨ 4 * (data.length / 4) ≤ i →
      (grayscale data)[i]? = data[i]?
  | [], _, _ => rfl
  | [_], _, _ => rfl
  | [_, _], _, _ => rfl
  | [_, _, _], _, _ => rfl
  | r :: g :: b :: a :: rest, i, h => by
    simp only [List.length_cons] at h
    match i, h with
    | 0, h => exact absurd h (by omega)
    | 1, h => exact absurd h (by omega)
    | 2, h => exact absurd h (by omega)
    | 3, _ =>
      show (grayByte r g b :: grayByte r g b :: grayByte r g b :: a :: grayscale rest)[3]? =
        (r :: g :: b :: a :: rest)[3]?
      simp
    | j + 4, h =>
      have h2 : j % 4 = 3 ∨ 4 * (rest.length / 4) ≤ j := by omega
      show (grayByte r g b :: grayByte r g b :: grayByte r g b :: a :: grayscale rest)[j + 4]? =
        (r :: g :: b :: a :: rest)[j + 4]?
      rw [cons4_getElem, cons4_getElem]
      exact grayscale_preserve rest j h2

theorem adjust_brightness_preserve :
    ∀ (data : List Nat) (f : Dy) (i : Nat), i % 4 = 3 ∨ 4 * (data.length / 4) ≤ i →
      (adjust_brightness data f)[i]? = data[i]?
  | [], _, _, _ => rfl
  | [_], _, _, _ => rfl
  | [_, _], _, _, _ => rfl
  | [_, _, _], _, _, _ => rfl
  | r :: g :: b :: a :: rest, f, i, h => by
    simp only [List.length_cons] at h
    match i, h with
    | 0, h => exact absurd h (by omega)
    | 1, h => exact absurd h (by omega)
    | 2, h => exact absurd h (by omega)
    | 3, _ =>
      show (brightByte r f :: brightByte g f :: brightByte b f :: a ::
        adjust_brightness rest f)[3]? = (r :: g :: b :: a :: rest)[3]?
      simp
    | j + 4, h =>
      have h2 : j % 4 = 3 ∨ 4 * (rest.length / 4) ≤ j := by omega
      show (brightByte r f :: brightByte g f :: brightByte b f :: a ::
        adjust_brightness rest f)[j + 4]? = (r :: g :: b :: a :: rest)[j + 4]?
      rw [cons4_getElem, cons4_getElem]
      exact adjust_brightness_preserve rest f j h2

/-- C8: the in-place kernels quicksort, grayscale and adjust_brightness never
change the buffer length, and the two pixel kernels leave every alpha byte
(index 3 modulo 4 inside a full chunk) and every byte of a trailing chunk
shorter than four bytes exactly as it was. -/
theorem in_place_frame (data : List Nat) (f : Dy) (l : List Dy) (i : Nat)
    (h : i % 4 = 3 ∨ 4 * (data.length / 4) ≤ i) :
    (grayscale data).length = data.length ∧
    (adjust_brightness data f).length = data.length ∧
    (quicksort fltLt l).length = l.length ∧
    (grayscale data)[i]? = data[i]? ∧
    (adjust_brightness data f)[i]? = data[i]? :=
  ⟨grayscale_length data, adjust_brightness_length data f, quicksort_length fltLt l,
    grayscale_preserve data i h, adjust_brightness_preserve data f i h⟩

/-- Witness: the frame theorem applied to the buffer [9, 8, 7, 6, 5] at the
alpha index 3 and to a one-element float slice. -/
theorem in_place_frame_witness :
    (grayscale [9, 8, 7, 6, 5])[3]? = some 6 ∧ (adjust_brightness [9, 8, 7, 6, 5] ⟨5, 1⟩)[4]? = some 5 := by
  have h3 := in_place_frame [9, 8, 7, 6, 5] ⟨5, 1⟩ [d0] 3 (by decide)
  have h4 := in_place_frame [9, 8, 7, 6, 5] ⟨5, 1⟩ [d0] 4 (by decide)
  exact ⟨h3.2.2.2.1.trans (by decide), h4.2.2.2.2.trans (by decide)⟩

/-! ### C5: matrix multiply -/

theorem idx_lt_sq {i j n : Nat} (hi : i < n) (hj : j < n) : i * n + j < n * n :=
  calc i * n + j < i * n + n := by omega
    _ = (i + 1) * n := by ring
    _ ≤ n * n := Nat.mul_le_mul_right n (by omega)

theorem foldl_set_length {β : Type} (g : β → Nat) (v : β → Dy) :
    ∀ (xs : List β) (init : List Dy), (xs.foldl (fun r x => r.set (g x) (v x)) init).length =
      init.length := by
  intro xs
  induction xs with
  | nil => intro init; rfl
  | cons x xs ih =>
    intro init
    show (xs.foldl _ (init.set (g x) (v x))).length = init.length
    rw [ih, List.length_set]

theorem mm_inner_spec (a b : List Dy) (n i : Nat) :
    ∀ (m : Nat) (res : List Dy), res.length = n * n → i < n → m ≤ n →
      ((List.range m).foldl (fun r j => r.set (i * n + j) (mmSum a b n i j)) res).length = n * n ∧
      (∀ j0, j0 < m →
        ((List.range m).foldl (fun r j => r.set (i * n + j) (mmSum a b n i j)) res)[i * n + j0]? =
          some (mmSum a b n i j0)) ∧
      (∀ q, (∀ j, j < m → q ≠ i * n + j) →
        ((List.range m).foldl (fun r j => r.set (i * n + j) (mmSum a b n i j)) res)[q]? =
          res[q]?) := by
  intro m
  induction m with
  | zero =>
    intro res hres hi _
    exact ⟨hres, fun j0 hj0 => absurd hj0 (by omega), fun q _ => rfl⟩
  | succ m ih =>
    intro res hres hi hm
    obtain ⟨ihlen, ihat, ihother⟩ := ih res hres hi (by omega)
    rw [List.range_succ, List.foldl_append]
    simp only [List.foldl_cons, List.foldl_nil]
    refine ⟨by rw [List.length_set, ihlen], ?_, ?_⟩
    · intro j0 hj0
      by_cases hj0m : j0 = m
      · subst hj0m
        rw [List.getElem?_set, if_pos rfl, if_pos (by rw [ihlen]; exact idx_lt_sq hi (by omega))]
      · rw [List.getElem?_set, if_neg (by omega)]
        exact ihat j0 (by omega)
    · intro q hq
      rw [List.getElem?_set, if_neg (fun h => hq m (by omega) h.symm)]
      exact ihother q (fun j hj => hq j (by omega))

theorem mm_outer_spec (a b : List Dy) (n : Nat) :
    ∀ (m : Nat) (res : List Dy), res.length = n * n → m ≤ n →
      ((List.range m).foldl (fun r i =>
        (List.range n).foldl (fun r2 j => r2.set (i * n + j) (mmSum a b n i j)) r) res).length =
          n * n ∧
      (∀ i0 j0, i0 < m → j0 < n →
        ((List.range m).foldl (fun r i =>
          (List.range n).foldl (fun r2 j => r2.set (i * n + j) (mmSum a b n i j)) r)
            res)[i0 * n + j0]? = some (mmSum a b n i0 j0)) := by
  intro m
  induction m with
  | zero =>
    intro res hres _
    exact ⟨hres, fun i0 j0 hi0 _ => absurd hi0 (by omega)⟩
  | succ m ih =>
    intro res hres hm
    obtain ⟨ihlen, ihat⟩ := ih res hres (by omega)
    rw [List.range_succ, List.foldl_append]
    simp only [List.foldl_cons, List.foldl_nil]
    obtain ⟨rowlen, rowat, rowother⟩ := mm_inner_spec a b n m n _ ihlen (by omega) (Nat.le.refl)
    refine ⟨rowlen, ?_⟩
    intro i0 j0 hi0 hj0
    by_cases hi0m : i0 = m
    · subst hi0m
      exact rowat j0 hj0
    · have hlow : i0 * n + j0 < m * n :=
        calc i0 * n + j0 < (i0 + 1) * n := by ring_nf; omega
          _ ≤ m * n := Nat.mul_le_mul_right n (by omega)
      rw [rowother _ (fun j hj => by omega)]
      exact ihat i0 j0 (by omega) hj0

theorem identityMat_getD (n i k : Nat) (hi : i < n) (hk : k < n) :
    (identityMat n).getD (i * n + k) d0 = if i = k then d1 else d0 := by
  have hn : 0 < n := by omega
  have hin : i * n + k < n * n := idx_lt_sq hi hk
  have hdiv : (i * n + k) / n = i := by
    rw [show i * n + k = n * i + k by ring, Nat.mul_add_div hn, Nat.div_eq_of_lt hk]
    omega
  have hmod : (i * n + k) % n = k := by
    rw [show i * n + k = n * i + k by ring, Nat.mul_add_mod, Nat.mod_eq_of_lt hk]
  unfold identityMat
  rw [List.getD_eq_getElem?_getD, List.getElem?_map, List.getElem?_range hin]
  simp [hdiv, hmod]

theorem fmul_d0_left (x : Dy) : fmul d0 x = d0 := by
  simp [fmul, dmul, d0, dround]

theorem dmul_d1_left (x : Dy) : dmul d1 x = x := by
  cases x
  simp [dmul, d1]

theorem dadd_d0_left (x : Dy) : dadd d0 x = x := by
  cases x
  simp [dadd, d0]

theorem dadd_d0_right (x : Dy) : dadd x d0 = x := by
  cases x
  simp [dadd, d0]

theorem fadd_d0_right_of_stable {x : Dy} (h : dround x = x) : fadd x d0 = x := by
  rw [fadd, dadd_d0_right, h]

theorem fadd_d0_left_of_stable {x : Dy} (h : dround x = x) : fadd d0 x = x := by
  rw [fadd, dadd_d0_left, h]

theorem fadd_d0_d0 : fadd d0 d0 = d0 := by
  rw [fadd, dadd_d0_left]
  rfl

theorem mmSum_identity (c : List Dy) (n i j : Nat) (hc : c.length = n * n)
    (hstable : ∀ x ∈ c, dround x = x) (hi : i < n) (hj : j < n) :
    mmSum (identityMat n) c n i j = c.getD (i * n + j) d0 := by
  have hmem : c.getD (i * n + j) d0 ∈ c := by
    have hlt : i * n + j < c.length := by rw [hc]; exact idx_lt_sq hi hj
    rw [List.getD_eq_getElem?_getD, List.getElem?_eq_getElem hlt]
    exact List.getElem_mem hlt
  have hstab := hstable _ hmem
  have hstep : ∀ m : Nat, m ≤ n →
      (List.range m).foldl
        (fun s k => fadd s (fmul ((identityMat n).getD (i * n + k) d0) (c.getD (k * n + j) d0)))
        d0 = if i < m then c.getD (i * n + j) d0 else d0 := by
    intro m
    induction m with
    | zero => intro _; rw [if_neg (by omega)]; rfl
    | succ m ih =>
      intro hm
      rw [List.range_succ, List.foldl_append]
      simp only [List.foldl_cons, List.foldl_nil]
      rw [ih (by omega)]
      by_cases him : i = m
      · subst him
        rw [if_neg (by omega), if_pos (by omega)]
        rw [identityMat_getD n i i hi hi, if_pos rfl]
        rw [fmul, dmul_d1_left, hstab]
        exact fadd_d0_left_of_stable hstab
      · rw [identityMat_getD n i m hi (by omega), if_neg him, fmul_d0_left]
        by_cases hlt : i < m
        · rw [if_pos hlt, if_pos (by omega)]
          exact fadd_d0_right_of_stable hstab
        · rw [if_neg hlt, if_neg (by omega)]
          exact fadd_d0_d0
  have := hstep n (Nat.le.refl)
  rw [if_pos hi] at this
  exact this

theorem matrix_multiply_length (a b : List Dy) (n : Nat) :
    (matrix_multiply a b n).length = n * n :=
  (mm_outer_spec a b n n (List.replicate (n * n) d0) (List.length_replicate _ _) (Nat.le.refl)).1

theorem matrix_multiply_getElem (a b : List Dy) (n i j : Nat) (hi : i < n) (hj : j < n) :
    (matrix_multiply a b n)[i * n + j]? = some (mmSum a b n i j) :=
  (mm_outer_spec a b n n (List.replicate (n * n) d0) (List.length_replicate _ _)
    (Nat.le.refl)).2 i j hi hj

/-- C5: matrix_multiply on inputs of declared size n*n returns a fresh
sequence of length n*n whose entry at index i*n+j is the left-to-right f64
accumulation over k of a[i*n+k] * b[k*n+j] (the inner-loop sum mmSum); and
multiplying the identity matrix by any matrix of round-stable doubles of
side n returns that matrix unchanged. -/
theorem matrix_multiply_spec (a b : List Dy) (n : Nat)
    (ha : a.length = n * n) (hb : b.length = n * n) :
    (matrix_multiply a b n).length = n * n ∧
    (∀ i j, i < n → j < n →
      (matrix_multiply a b n)[i * n + j]? = some (mmSum a b n i j)) ∧
    (∀ c : List Dy, c.length = n * n → (∀ x ∈ c, dround x = x) →
      matrix_multiply (identityMat n) c n = c) := by
  refine ⟨matrix_multiply_length a b n, fun i j hi hj => matrix_multiply_getElem a b n i j hi hj, ?_⟩
  intro c hc hstable
  apply List.ext_getElem?
  intro q
  by_cases hq : q < n * n
  · have hn : 0 < n := by
      rcases Nat.eq_zero_or_pos n with h | h
      · subst h; omega
      · exact h
    have hdec : (q / n) * n + q % n = q := by
      have h2 := Nat.div_add_mod q n
      calc (q / n) * n + q % n = n * (q / n) + q % n := by ring
        _ = q := h2
    have hdiv : q / n < n := by
      rw [Nat.div_lt_iff_lt_mul hn]
      omega
    have hmod : q % n < n := Nat.mod_lt _ hn
    have hval := matrix_multiply_getElem (identityMat n) c n (q / n) (q % n) hdiv hmod
    rw [hdec] at hval
    have hlt : q < c.length := by rw [hc]; exact hq
    rw [hval, mmSum_identity c n (q / n) (q % n) hc hstable hdiv hmod, hdec,
      List.getD_eq_getElem?_getD, List.getElem?_eq_getElem hlt]
    rfl
  · rw [List.getElem?_eq_none (by rw [matrix_multiply_length]; omega),
      List.getElem?_eq_none (by omega)]

/-- Witness: multiplying the identity by a concrete 2-by-2 matrix returns it,
and the entry formula holds at a concrete index. -/
theorem matrix_multiply_spec_witness :
    matrix_multiply (identityMat 2) [⟨1, 0⟩, ⟨2, 0⟩, ⟨3, 0⟩, ⟨5, 0⟩] 2 =
      [⟨1, 0⟩, ⟨2, 0⟩, ⟨3, 0⟩, ⟨5, 0⟩] := by
  have h := matrix_multiply_spec (identityMat 2) [⟨1, 0⟩, ⟨2, 0⟩, ⟨3, 0⟩, ⟨5, 0⟩] 2
    (by decide) (by decide)
  exact h.2.2 [⟨1, 0⟩, ⟨2, 0⟩, ⟨3, 0⟩, ⟨5, 0⟩] (by decide) (by decide)

/-! ### C4: the prime sieve -/

theorem sqrtAux_eq (n : Nat) : ∀ (f r : Nat), r * r ≤ n → Nat.sqrt n ≤ r + f →
    sqrtAux n f r = Nat.sqrt n := by
  intro f
  induction f with
  | zero =>
    intro r h1 h2
    have h3 : r ≤ Nat.sqrt n := Nat.le_sqrt.mpr h1
    show r = Nat.sqrt n
    omega
  | succ f ih =>
    intro r h1 h2
    show (if (r + 1) * (r + 1) ≤ n then sqrtAux n f (r + 1) else r) = Nat.sqrt n
    split
    case isTrue h =>
      exact ih (r + 1) h (by omega)
    case isFalse h =>
      have h3 : r ≤ Nat.sqrt n := Nat.le_sqrt.mpr h1
      have h4 : Nat.sqrt n < r + 1 := by
        rw [Nat.sqrt_lt]
        omega
      omega

theorem isqrt_eq (n : Nat) : isqrt n = Nat.sqrt n :=
  sqrtAux_eq n n 0 (by omega) (by have := Nat.sqrt_le_self n; omega)

theorem getD_set_bool (l : List Bool) (j m : Nat) (hj : j < l.length) :
    (l.set j false).getD m false = if m = j then false else l.getD m false := by
  rw [List.getD_eq_getElem?_getD, List.getD_eq_getElem?_getD, List.getElem?_set]
  by_cases hm : m = j
  · subst hm
    rw [if_pos rfl, if_pos rfl, if_pos hj]
    rfl
  · rw [if_neg (fun h => hm h.symm), if_neg hm]

theorem mark_spec (n : Nat) (hn32 : n + 65535 < 2 ^ 32) :
    ∀ (fuel : Nat) (isp : List Bool) (i j : Nat),
      isp.length = n + 1 → 1 ≤ i → i ≤ 65535 → n + 2 ≤ fuel + j → 1 ≤ fuel →
      ∃ res, markMultiples fuel isp i j n = some res ∧ res.length = n + 1 ∧
        ∀ m, res.getD m false =
          if j ≤ m ∧ i ∣ (m - j) ∧ m ≤ n then false else isp.getD m false := by
  intro fuel
  induction fuel with
  | zero => intro isp i j _ _ _ _ hc; omega
  | succ fuel ih =>
    intro isp i j hlen hi1 hi2 hfj _
    by_cases hjn : j ≤ n
    · have hjlen : j < isp.length := by omega
      have hmod : (j + i) % 2 ^ 32 = j + i := Nat.mod_eq_of_lt (by omega)
      have hfuel1 : 1 ≤ fuel := by omega
      obtain ⟨res, hrun, hreslen, hresget⟩ := ih (isp.set j false) i (j + i)
        (by rw [List.length_set]; exact hlen) hi1 hi2 (by omega) hfuel1
      refine ⟨res, ?_, hreslen, ?_⟩
      · show (if j ≤ n then
            if j < isp.length then markMultiples fuel (isp.set j false) i ((j + i) % 2 ^ 32) n
            else none
          else some isp) = some res
        rw [if_pos hjn, if_pos hjlen, hmod]
        exact hrun
      · intro m
        rw [hresget m, getD_set_bool isp j m hjlen]
        by_cases hc : j ≤ m ∧ i ∣ (m - j) ∧ m ≤ n
        · rw [if_pos hc]
          obtain ⟨hc1, hc2, hc3⟩ := hc
          by_cases hmj : m = j
          · rw [if_neg (by omega), if_pos hmj]
          · have hge : i ≤ m - j := Nat.le_of_dvd (by omega) hc2
            have hdvd2 : i ∣ m - (j + i) := by
              have he : m - (j + i) = m - j - i := by omega
              rw [he]
              exact Nat.dvd_sub' hc2 (dvd_refl i)
            rw [if_pos ⟨by omega, hdvd2, hc3⟩]
        · rw [if_neg hc]
          have hnc2 : ¬(j + i ≤ m ∧ i ∣ (m - (j + i)) ∧ m ≤ n) := by
            rintro ⟨ha1, ha2, ha3⟩
            apply hc
            refine ⟨by omega, ?_, ha3⟩
            have he : m - j = (m - (j + i)) + i := by omega
            rw [he]
            exact Nat.dvd_add ha2 (dvd_refl i)
          have hmj : ¬(m = j) := by
            intro hmj
            apply hc
            subst hmj
            exact ⟨Nat.le.refl, by simp, hjn⟩
          rw [if_neg hnc2, if_neg hmj]
    · refine ⟨isp, ?_, hlen, fun m => ?_⟩
      · show (if j ≤ n then
            if j < isp.length then markMultiples fuel (isp.set j false) i ((j + i) % 2 ^ 32) n
            else none
          else some isp) = some isp
        rw [if_neg hjn]
      · rw [if_neg (fun hcc => hjn (le_trans hcc.1 hcc.2.2))]

theorem prime_iff_no_divisor (i : Nat) (h2 : 2 ≤ i) :
    (¬∃ d, 2 ≤ d ∧ d < i ∧ d ∣ i ∧ d * d ≤ i) ↔ Nat.Prime i := by
  constructor
  · intro hno
    by_contra hnp
    have hpos : 0 < i := by omega
    have hp := Nat.minFac_prime (show i ≠ 1 by omega)
    have hd := Nat.minFac_dvd i
    have hsq : i.minFac * i.minFac ≤ i := by
      have := Nat.minFac_sq_le_self hpos hnp
      rwa [pow_two] at this
    have h2le : 2 ≤ i.minFac := hp.two_le
    have hlt : i.minFac < i := by
      have hle := Nat.le_of_dvd hpos hd
      rcases Nat.eq_or_lt_of_le hle with h | h
      · nlinarith
      · exact h
    exact hno ⟨i.minFac, h2le, hlt, hd, hsq⟩
  · intro hp
    rintro ⟨d, hd2, hdlt, hdvd, _⟩
    rcases hp.eq_one_or_self_of_dvd d hdvd with h | h
    · omega
    · omega

theorem sieveInv_init (n : Nat) (hn : 2 ≤ n) :
    SieveInv n (((List.replicate (n + 1) true).set 0 false).set 1 false) 2 := by
  constructor
  · rw [List.length_set, List.length_set, List.length_replicate]
  · intro m hm
    have h1len : 1 < ((List.replicate (n + 1) true).set 0 false).length := by
      rw [List.length_set, List.length_replicate]
      omega
    have h0len : 0 < (List.replicate (n + 1) true : List Bool).length := by
      rw [List.length_replicate]
      omega
    rw [getD_set_bool _ 1 m h1len, getD_set_bool _ 0 m h0len]
    by_cases hm1 : m = 1
    · subst hm1
      simp only [if_pos rfl]
      constructor
      · intro h; exact absurd h (by simp)
      · rintro ⟨h2, _⟩; omega
    · rw [if_neg hm1]
      by_cases hm0 : m = 0
      · subst hm0
        simp only [if_pos rfl]
        constructor
        · intro h; exact absurd h (by simp)
        · rintro ⟨h2, _⟩; omega
      · rw [if_neg hm0]
        rw [List.getD_eq_getElem?_getD, List.getElem?_replicate, if_pos (by omega)]
        simp only [Option.getD_some]
        constructor
        · intro _
          refine ⟨by omega, ?_⟩
          rintro ⟨d, hd2, hdlt, _, _⟩
          omega
        · intro _
          trivial

theorem sieveLoop_inv (n : Nat) (hn : 2 ≤ n) (hn32 : n + 65535 < 2 ^ 32) :
    ∀ (c : Nat) (isp : List Bool) (i : Nat), 2 ≤ i → i + c ≤ Nat.sqrt n + 1 →
      SieveInv n isp i →
      ∃ final, sieveLoop c isp i n = some final ∧ SieveInv n final (i + c) := by
  intro c
  induction c with
  | zero =>
    intro isp i _ _ hinv
    exact ⟨isp, rfl, hinv⟩
  | succ c ih =>
    intro isp i hi2 hic hinv
    obtain ⟨hlen, hmark⟩ := hinv
    have hisqrt : i ≤ Nat.sqrt n := by omega
    have hin : i ≤ n := le_trans hisqrt (Nat.sqrt_le_self n)
    have hilen : i < isp.length := by omega
    have hi65535 : i ≤ 65535 := by
      have hs : Nat.sqrt n < 65536 := by
        rw [Nat.sqrt_lt]
        omega
      omega
    have hgetD : isp.getD i false = isp.get ⟨i, hilen⟩ := by
      rw [List.getD_eq_getElem?_getD, List.getElem?_eq_getElem hilen]
      rfl
    rw [sieveLoop, dif_pos hilen]
    cases hgv : isp.get ⟨i, hilen⟩
    case false =>
      rw [if_neg (show ¬(false = true) by simp)]
      have hfin := ih isp (i + 1) (by omega) (by omega) ?_
      · obtain ⟨final, hrun, hinv2⟩ := hfin
        exact ⟨final, hrun, by rw [show i + (c + 1) = i + 1 + c by omega]; exact hinv2⟩
      · refine ⟨hlen, ?_⟩
        intro m hm
        rw [hmark m hm]
        have hicomp : ∃ d, 2 ≤ d ∧ d < i ∧ d ∣ i ∧ d * d ≤ i := by
          by_contra hno
          have hq := (hmark i hin).mpr ⟨hi2, hno⟩
          rw [hgetD, hgv] at hq
          exact absurd hq (by simp)
        obtain ⟨d0, hd02, hd0lt, hd0dvd, hd0sq⟩ := hicomp
        constructor
        · rintro ⟨hm2, hno⟩
          refine ⟨hm2, ?_⟩
          rintro ⟨d, hd2, hdlt, hdvd, hdsq⟩
          by_cases hdi : d = i
          · subst hdi
            refine hno ⟨d0, hd02, by omega, dvd_trans hd0dvd hdvd, ?_⟩
            have hdd : d * d ≤ m := hdsq
            have hdle : d ≤ d * d := Nat.le_mul_of_pos_left d (by omega)
            omega
          · exact hno ⟨d, hd2, by omega, hdvd, hdsq⟩
        · rintro ⟨hm2, hno⟩
          refine ⟨hm2, ?_⟩
          rintro ⟨d, hd2, hdlt, hdvd, hdsq⟩
          exact hno ⟨d, hd2, by omega, hdvd, hdsq⟩
    case true =>
      rw [if_pos rfl]
      have hmodii : (i * i) % 2 ^ 32 = i * i := by
        apply Nat.mod_eq_of_lt
        calc i * i ≤ 65535 * 65535 := Nat.mul_le_mul hi65535 hi65535
          _ < 2 ^ 32 := by norm_num
      obtain ⟨res, hrun, hreslen, hresget⟩ := mark_spec n hn32 (n + 2) isp i (i * i)
        hlen (by omega) hi65535 (by omega) (by omega)
      rw [hmodii, hrun]
      have hfin := ih res (i + 1) (by omega) (by omega) ?_
      · obtain ⟨final, hrun2, hinv2⟩ := hfin
        exact ⟨final, hrun2, by rw [show i + (c + 1) = i + 1 + c by omega]; exact hinv2⟩
      · refine ⟨hreslen, ?_⟩
        intro m hm
        rw [hresget m]
        by_cases hcond : i * i ≤ m ∧ i ∣ (m - i * i) ∧ m ≤ n
        · rw [if_pos hcond]
          constructor
          · intro hff; exact absurd hff (by simp)
          · rintro ⟨hm2, hno⟩
            exfalso
            apply hno
            have hdvdm : i ∣ m := by
              have he : m = (m - i * i) + i * i := by omega
              rw [he]
              exact Nat.dvd_add hcond.2.1 (Dvd.intro i rfl)
            exact ⟨i, hi2, by omega, hdvdm, hcond.1⟩
        · rw [if_neg hcond]
          rw [hmark m hm]
          constructor
          · rintro ⟨hm2, hno⟩
            refine ⟨hm2, ?_⟩
            rintro ⟨d, hd2, hdlt, hdvd, hdsq⟩
            by_cases hdi : d = i
            · subst hdi
              apply hcond
              exact ⟨hdsq, Nat.dvd_sub' hdvd (Dvd.intro d rfl), hm⟩
            · exact hno ⟨d, hd2, by omega, hdvd, hdsq⟩
          · rintro ⟨hm2, hno⟩
            refine ⟨hm2, ?_⟩
            rintro ⟨d, hd2, hdlt, hdvd, hdsq⟩
            exact hno ⟨d, hd2, by omega, hdvd, hdsq⟩

theorem marker_iff_prime (n : Nat) (final : List Bool)
    (hinv : SieveInv n final (Nat.sqrt n + 1)) :
    ∀ m, m ≤ n → (final.getD m false = true ↔ Nat.Prime m) := by
  obtain ⟨hlen, hmark⟩ := hinv
  intro m hm
  rw [hmark m hm]
  by_cases hm2 : 2 ≤ m
  · constructor
    · rintro ⟨_, hno⟩
      by_contra hnp
      have hpos : 0 < m := by omega
      have hp := Nat.minFac_prime (show m ≠ 1 by omega)
      have hd := Nat.minFac_dvd m
      have hsq : m.minFac * m.minFac ≤ m := by
        have hq := Nat.minFac_sq_le_self hpos hnp
        rwa [pow_two] at hq
      have h2le : 2 ≤ m.minFac := hp.two_le
      have hsqrt : m.minFac ≤ Nat.sqrt n := Nat.le_sqrt.mpr (by omega)
      exact hno ⟨m.minFac, h2le, by omega, hd, hsq⟩
    · intro hp
      refine ⟨hm2, ?_⟩
      rintro ⟨d, hd2, _, hdvd, hdsq⟩
      rcases hp.eq_one_or_self_of_dvd d hdvd with h | h
      · omega
      · subst h
        nlinarith
  · constructor
    · rintro ⟨h2, _⟩
      omega
    · intro hp
      exact absurd hp.two_le (by omega)

theorem enumFrom_filterMap : ∀ (l : List Bool) (s : Nat),
    (List.enumFrom s l).filterMap (fun p => if p.2 then some p.1 else none) =
      ((List.range l.length).filter (fun k => l.getD k false)).map (fun k => s + k) := by
  intro l
  induction l with
  | nil => intro s; rfl
  | cons x l ih =>
    intro s
    have hshift : ((fun k => s + k) ∘ Nat.succ) = fun k : Nat => s + 1 + k := by
      funext k
      simp only [Function.comp]
      omega
    cases x
    case true =>
      have hpred : ((fun k => (true :: l).getD k false) ∘ Nat.succ) =
          fun k : Nat => l.getD k false := funext fun k => rfl
      show s :: List.filterMap (fun p => if p.2 then some p.1 else none)
          (List.enumFrom (s + 1) l) =
        ((List.range (l.length + 1)).filter (fun k => (true :: l).getD k false)).map
          (fun k => s + k)
      rw [ih (s + 1), List.range_succ_eq_map, List.filter_cons]
      simp only [List.filter_map, List.map_map, hshift, hpred]
      simp
      intro a _ _
      omega
    case false =>
      have hpred : ((fun k => (false :: l).getD k false) ∘ Nat.succ) =
          fun k : Nat => l.getD k false := funext fun k => rfl
      show List.filterMap (fun p => if p.2 then some p.1 else none)
          (List.enumFrom (s + 1) l) =
        ((List.range (l.length + 1)).filter (fun k => (false :: l).getD k false)).map
          (fun k => s + k)
      rw [ih (s + 1), List.range_succ_eq_map, List.filter_cons]
      simp only [List.filter_map, List.map_map, hshift, hpred]
      simp
      intro a _ _
      omega

theorem collectPrimes_eq (l : List Bool) :
    collectPrimes l = (List.range l.length).filter (fun k => l.getD k false) := by
  unfold collectPrimes
  show (List.enumFrom 0 l).filterMap (fun p => if p.2 then some p.1 else none) = _
  rw [enumFrom_filterMap l 0]
  have hid : (fun k : Nat => 0 + k) = fun k : Nat => k := funext fun k => by omega
  rw [hid]
  exact List.map_id' _

theorem bool_eq_of_iff {a b : Bool} (h : (a = true) ↔ (b = true)) : a = b := by
  cases a <;> cases b <;> simp_all

/-- Counterexample to C4 as stated: at the largest u32 bound n = 2^32 - 1 the
size computation (n + 1) as usize wraps to 0 in release-mode wasm, the marker
vector is empty, and the write is_prime[0] = false panics out of bounds, so
the kernel does not return the primes up to n (the model yields none). -/
theorem calculate_primes_wrap_counterexample :
    calculate_primes (2 ^ 32 - 1) = none ∧ 2 ≤ 2 ^ 32 - 1 := by
  refine ⟨by decide, by decide⟩

/-- C4 amended: for every bound n with 2 ≤ n ≤ 2^32 - 65536 (so that neither
the u32 size computation n + 1 nor the inner loop increment j += i can wrap),
calculate_primes n returns exactly the primes up to n in ascending order —
the filter of 0..n by primality — and the spec examples hold; the range cap
is forced by the counterexample at n = 2^32 - 1, where the size computation
wraps and the kernel panics. -/
theorem calculate_primes_spec (n : Nat) (h2 : 2 ≤ n) (hub : n ≤ 2 ^ 32 - 65536) :
    calculate_primes n = some ((List.range (n + 1)).filter (fun m => decide (Nat.Prime m))) ∧
    calculate_primes 1 = some [] ∧ calculate_primes 2 = some [2] ∧
    calculate_primes 10 = some [2, 3, 5, 7] := by
  refine ⟨?_, by decide, by decide, by decide⟩
  have hn32 : n + 65535 < 2 ^ 32 := by omega
  have hsq1 : 1 ≤ Nat.sqrt n := Nat.le_sqrt.mpr (by omega)
  unfold calculate_primes
  rw [if_neg (by omega)]
  show (if 2 ≤ (n + 1) % 2 ^ 32 then _ else none) = _
  rw [show (n + 1) % 2 ^ 32 = n + 1 from Nat.mod_eq_of_lt (by omega), if_pos (by omega),
    isqrt_eq]
  obtain ⟨final, hrun, hinv⟩ := sieveLoop_inv n h2 hn32 (Nat.sqrt n - 1)
    (((List.replicate (n + 1) true).set 0 false).set 1 false) 2 (by omega) (by omega)
    (sieveInv_init n h2)
  show (match sieveLoop (Nat.sqrt n - 1) (((List.replicate (n + 1) true).set 0 false).set 1 false)
      2 n with
    | none => none
    | some final => some (collectPrimes final)) =
    some ((List.range (n + 1)).filter (fun m => decide (Nat.Prime m)))
  rw [hrun]
  show some (collectPrimes final) = _
  congr 1
  have hinv2 : SieveInv n final (Nat.sqrt n + 1) := by
    rw [show Nat.sqrt n + 1 = 2 + (Nat.sqrt n - 1) by omega]
    exact hinv
  have hlen : final.length = n + 1 := hinv2.1
  rw [collectPrimes_eq, hlen]
  apply List.filter_congr
  intro k hk
  have hkn : k ≤ n := by
    have hk2 := List.mem_range.mp hk
    omega
  apply bool_eq_of_iff
  rw [decide_eq_true_eq]
  exact marker_iff_prime n final hinv2 k hkn

/-- Witness: the amended theorem applied at n = 10 (via its example conjunct,
whose hypotheses are discharged at 10). -/
theorem calculate_primes_spec_witness : calculate_primes 10 = some [2, 3, 5, 7] := by
  have h := (calculate_primes_spec 10 (by decide) (by decide)).1
  rw [h]
  decide

end Wasm
